import Mathlib

/-!
Verification development for the XMLizer pipeline (`app.py`).

Text is modelled as `List Char` (one entry per Unicode code point, matching
Python's `str`).  Byte strings are `List Nat`.  Each Python function of the
pipeline is translated to an executable Lean definition keeping its source
name.  The external `lxml` recovery parser (`etree.fromstring` with
`recover=True`) and serializer (`etree.tostring`) are modelled by an
executable recovery parser and serializer over an XML tree type; the model
follows libxml2's documented recovery behaviour: it always produces a tree
once a root start tag is found, skips or repairs malformed constructs while
flagging that an error was seen, and raises (modelled as `Option.none`,
turned into `Except.error` by the caller) only when no root element can be
recovered at all.
-/

abbrev Str := List Char

/-- Python's `str.isspace` / regex `\s` character class (Unicode whitespace). -/
def isPySpace (c : Char) : Bool :=
  c = ' ' || c = '\t' || c = '\n' || c = '\r' || c = '\x0b' || c = '\x0c' ||
  (0x1c ≤ c.toNat && c.toNat ≤ 0x1f) || c.toNat = 0x85 || c.toNat = 0xa0 ||
  c.toNat = 0x1680 || (0x2000 ≤ c.toNat && c.toNat ≤ 0x200a) ||
  c.toNat = 0x2028 || c.toNat = 0x2029 || c.toNat = 0x202f ||
  c.toNat = 0x205f || c.toNat = 0x3000

/-- Characters removed by `clean_illegal_xml_chars`: the regex class
`[\x00-\x08\x0B\x0C\x0E-\x1F\uD800-\uDFFF￾￿]` from the source. -/
def isIllegalXmlChar (c : Char) : Bool :=
  c.toNat ≤ 0x08 || c.toNat = 0x0B || c.toNat = 0x0C ||
  (0x0E ≤ c.toNat && c.toNat ≤ 0x1F) ||
  (0xD800 ≤ c.toNat && c.toNat ≤ 0xDFFF) ||
  c.toNat = 0xFFFE || c.toNat = 0xFFFF

/-- Source: `illegal_xml_re.sub("", text)` — removes every matching character. -/
def clean_illegal_xml_chars (text : Str) : Str :=
  text.filter (fun c => !isIllegalXmlChar c)

/-- Python `str.replace` for a single-character pattern: every occurrence of
`c` is replaced by `rep`. -/
def charReplace (c : Char) (rep : Str) : Str → Str
  | [] => []
  | a :: r => (if a = c then rep else [a]) ++ charReplace c rep r

/-- Source `escape_xml_entities`: the five sequential `str.replace` calls,
ampersand first. -/
def escape_xml_entities (text : Str) : Str :=
  charReplace '\'' ("&apos;".data)
    (charReplace '"' ("&quot;".data)
      (charReplace '>' ("&gt;".data)
        (charReplace '<' ("&lt;".data)
          (charReplace '&' ("&amp;".data) text))))

/-- Python `str.strip()`: remove leading and trailing whitespace. -/
def pyStrip (s : Str) : Str :=
  ((s.dropWhile isPySpace).reverse.dropWhile isPySpace).reverse

/-- Source `re.sub(r"\s+", " ", ·)`: collapse every maximal whitespace run
to a single space. -/
def collapseWs : Str → Str
  | [] => []
  | [c] => if isPySpace c then [' '] else [c]
  | a :: b :: r =>
      if isPySpace a && isPySpace b then collapseWs (b :: r)
      else (if isPySpace a then ' ' else a) :: collapseWs (b :: r)

def isTermPunct (c : Char) : Bool := c = '.' || c = '!' || c = '?'

/-- Source `re.split(r"(?<=[.!?])\s+", ·)`: split at each maximal whitespace
run directly preceded by `.`, `!` or `?`; the run is discarded.  Fuel-driven
(the fuel is set to more than the input length at the call site). -/
def reSplitPW : Nat → Str → List Str
  | 0, l => [l]
  | _ + 1, [] => [[]]
  | fuel + 1, a :: r =>
      if isTermPunct a && (match r with | b :: _ => isPySpace b | [] => false) then
        [a] :: reSplitPW fuel (r.dropWhile isPySpace)
      else
        match reSplitPW fuel r with
        | s :: rest => (a :: s) :: rest
        | [] => [[a]]

/-- Source `sentence_split`: normalize whitespace, split after terminal
punctuation, drop segments that are empty after stripping. -/
def sentence_split (text : Str) : List Str :=
  let t := collapseWs (pyStrip text)
  (reSplitPW (t.length + 1) t).filter (fun s => !(pyStrip s).isEmpty)

/-- The decimal digit character for `n % 10`. -/
def digitChar (n : Nat) : Char :=
  if n = 0 then '0' else if n = 1 then '1' else if n = 2 then '2'
  else if n = 3 then '3' else if n = 4 then '4' else if n = 5 then '5'
  else if n = 6 then '6' else if n = 7 then '7' else if n = 8 then '8' else '9'

/-- Decimal digits of a natural number, as Python's `str(i)` renders it.
Fuel-driven; `natDigitsAux (n + 1) n` always has enough fuel. -/
def natDigitsAux : Nat → Nat → Str
  | 0, _ => []
  | fuel + 1, n =>
      if n < 10 then [digitChar n]
      else natDigitsAux fuel (n / 10) ++ [digitChar (n % 10)]

def natDigits (n : Nat) : Str := natDigitsAux (n + 1) n

/-- One block of `wrap_as_xml`: the f-string `<s n="{i}">\n{sent}\n</s>`. -/
def wrap_block (i : Nat) (sent : Str) : Str :=
  ("<s n=\"".data) ++ natDigits i ++ ("\">\n".data) ++ sent ++ ("\n</s>".data)

/-- Blocks for the sentence list, numbering from `i` (source: `enumerate(
sentences, start=1)` with `i = 1`). -/
def blocksFrom (i : Nat) : List Str → List Str
  | [] => []
  | s :: r => wrap_block i s :: blocksFrom (i + 1) r

/-- Python's `sep.join(parts)`. -/
def joinSep (sep : Str) : List Str → Str
  | [] => []
  | [x] => x
  | x :: y :: r => x ++ sep ++ joinSep sep (y :: r)

/-- Source `wrap_as_xml`: declaration, root element, numbered `<s>` blocks
joined by newlines. -/
def wrap_as_xml (sentences : List Str) : Str :=
  ("<?xml version=\"1.0\" encoding=\"UTF-8\"?>\n<document>\n".data) ++
  joinSep ['\n'] (blocksFrom 1 sentences) ++ ("\n</document>\n".data)

/-! ## The XML tree model (for lxml's `etree`) -/

mutual
inductive XTree where
  | text : Str → XTree
  | elem : Str → List (Str × Str) → XForest → XTree
deriving DecidableEq, Repr

inductive XForest where
  | nil : XForest
  | cons : XTree → XForest → XForest
deriving DecidableEq, Repr
end

def toForest : List XTree → XForest
  | [] => .nil
  | x :: l => .cons x (toForest l)

def ofForest : XForest → List XTree
  | .nil => []
  | .cons x f => x :: ofForest f

def isTextNode : XTree → Bool
  | .text _ => true
  | .elem _ _ _ => false

def headIsText : XForest → Bool
  | .cons (.text _) _ => true
  | _ => false

/-! ## Serializer: models `etree.tostring(tree, encoding="utf-8",
xml_declaration=True)` (libxml2 output conventions). -/

def concatMapStr (f : Char → Str) : Str → Str
  | [] => []
  | c :: r => f c ++ concatMapStr f r

/-- libxml2 text-content escaping: `&`, `<`, `>` as entities, CR as a
character reference; everything else literal. -/
def escTextC (c : Char) : Str :=
  if c = '&' then "&amp;".data
  else if c = '<' then "&lt;".data
  else if c = '>' then "&gt;".data
  else if c = '\r' then "&#13;".data
  else [c]

def escText (s : Str) : Str := concatMapStr escTextC s

/-- libxml2 attribute-value escaping: `&`, `<`, `>`, `"` as entities, and
tab/newline/CR as character references. -/
def escAttrC (c : Char) : Str :=
  if c = '&' then "&amp;".data
  else if c = '<' then "&lt;".data
  else if c = '>' then "&gt;".data
  else if c = '"' then "&quot;".data
  else if c = '\t' then "&#9;".data
  else if c = '\n' then "&#10;".data
  else if c = '\r' then "&#13;".data
  else [c]

def serAttrs : List (Str × Str) → Str
  | [] => []
  | (n, v) :: r => ' ' :: (n ++ '=' :: '"' :: (concatMapStr escAttrC v ++ '"' :: serAttrs r))

mutual
def serTree : XTree → Str
  | .text s => escText s
  | .elem tag attrs .nil => '<' :: (tag ++ serAttrs attrs ++ ['/', '>'])
  | .elem tag attrs (.cons x f) =>
      '<' :: (tag ++ serAttrs attrs ++ '>' ::
        (serForest (.cons x f) ++ '<' :: '/' :: (tag ++ ['>'])))

def serForest : XForest → Str
  | .nil => []
  | .cons x f => serTree x ++ serForest f
end

/-- Single-quote character (used by libxml2's XML declaration output). -/
def sQuote : Char := '\''

/-- The declaration `etree.tostring(..., xml_declaration=True)` emits. -/
def xmlDeclOut : Str :=
  ("<?xml version=".data) ++ [sQuote] ++ ("1.0".data) ++ [sQuote] ++
  (" encoding=".data) ++ [sQuote] ++ ("utf-8".data) ++ [sQuote] ++ ("?>\n".data)

/-- Models `etree.tostring(tree, encoding="utf-8", xml_declaration=True)
.decode("utf-8")`. -/
def xserialize (t : XTree) : Str := xmlDeclOut ++ serTree t

example : escape_xml_entities ("a & < b".data) = ("a &amp; &lt; b".data) := by decide
example : escape_xml_entities ("&amp;".data) = ("&amp;amp;".data) := by decide
example : sentence_split ("Hello world. How are you? Fine!".data) =
    [("Hello world.".data), ("How are you?".data), ("Fine!".data)] := by decide
example : sentence_split [] = [] := by decide
example : sentence_split (" ".data) = [] := by decide
example : natDigits 12 = ("12".data) := by decide
example : wrap_as_xml [("Hi.".data)] =
    ("<?xml version=\"1.0\" encoding=\"UTF-8\"?>\n<document>\n<s n=\"1\">\nHi.\n</s>\n</document>\n".data) := by
  decide

/-! ## Recovery parser: models `etree.fromstring` with
`etree.XMLParser(recover=True)` (libxml2 in recovery mode).  Returns the
recovered tree together with a flag recording whether any error was
encountered (recovered from); `none` models the `XMLSyntaxError` libxml2
raises when no root element can be recovered at all. -/

/-- XML name start characters (letters, underscore, colon, non-ASCII). -/
def isNameStart (c : Char) : Bool :=
  c.isAlpha || c = '_' || c = ':' || 0x80 ≤ c.toNat

/-- XML name characters. -/
def isNameChar (c : Char) : Bool :=
  isNameStart c || c.isDigit || c = '-' || c = '.'

/-- Whitespace as the XML parser sees it. -/
def isXmlWs (c : Char) : Bool :=
  c = ' ' || c = '\t' || c = '\n' || c = '\r'

def isHexDigitC (c : Char) : Bool :=
  c.isDigit || ('a' ≤ c && c ≤ 'f') || ('A' ≤ c && c ≤ 'F')

def hexVal (c : Char) : Nat :=
  if c.isDigit then c.toNat - 48
  else if 'a' ≤ c && c ≤ 'f' then c.toNat - 87
  else if 'A' ≤ c && c ≤ 'F' then c.toNat - 55
  else 0

/-- Code points acceptable in an XML character reference. -/
def xmlCharVal (n : Nat) : Bool :=
  n = 9 || n = 10 || n = 13 || (32 ≤ n && n ≤ 0xD7FF) ||
  (0xE000 ≤ n && n ≤ 0xFFFD) || (0x10000 ≤ n && n ≤ 0x10FFFF)

/-- Parses a character reference after `&#`: decimal or `x`-prefixed hex
digits followed by `;`. -/
def parseCharRef (l : Str) : Option (Char × Str) :=
  match l with
  | 'x' :: r =>
      let p := r.span isHexDigitC
      match p.1, p.2 with
      | [], _ => none
      | _ :: _, ';' :: r2 =>
          let n := p.1.foldl (fun a c => a * 16 + hexVal c) 0
          if xmlCharVal n then some (Char.ofNat n, r2) else none
      | _ :: _, _ => none
  | _ =>
      let p := l.span Char.isDigit
      match p.1, p.2 with
      | [], _ => none
      | _ :: _, ';' :: r2 =>
          let n := p.1.foldl (fun a c => a * 10 + (c.toNat - 48)) 0
          if xmlCharVal n then some (Char.ofNat n, r2) else none
      | _ :: _, _ => none

/-- Parses an entity reference after `&`: one of the five predefined XML
entities, or a character reference.  `none` models libxml2's entity error. -/
def parseEntity : Str → Option (Char × Str)
  | 'a' :: 'm' :: 'p' :: ';' :: r => some ('&', r)
  | 'l' :: 't' :: ';' :: r => some ('<', r)
  | 'g' :: 't' :: ';' :: r => some ('>', r)
  | 'q' :: 'u' :: 'o' :: 't' :: ';' :: r => some ('"', r)
  | 'a' :: 'p' :: 'o' :: 's' :: ';' :: r => some ('\'', r)
  | '#' :: r => parseCharRef r
  | _ => none

/-- Consumes a maximal run of character data (stopping at `<` or the end),
decoding entity references; a malformed reference keeps the literal `&` and
sets the error flag (libxml2 recovery).  Returns (text, rest, error). -/
def takeText : Nat → Str → Str × Str × Bool
  | 0, l => ([], l, true)
  | _ + 1, [] => ([], [], false)
  | fuel + 1, c :: r =>
      if c = '<' then ([], c :: r, false)
      else if c = '&' then
        match parseEntity r with
        | some (ch, r2) => let v := takeText fuel r2; (ch :: v.1, v.2.1, v.2.2)
        | none => let v := takeText fuel r; ('&' :: v.1, v.2.1, true)
      else let v := takeText fuel r; (c :: v.1, v.2.1, v.2.2)

/-- Parses a quoted attribute value after the opening quote `q`, decoding
entities and normalizing literal tab/newline/CR to spaces (XML
attribute-value normalization).  Returns (value, rest, error). -/
def parseAttValue : Nat → Char → Str → Str × Str × Bool
  | 0, _, l => ([], l, true)
  | _ + 1, _, [] => ([], [], true)
  | fuel + 1, q, c :: r =>
      if c = q then ([], r, false)
      else if c = '&' then
        match parseEntity r with
        | some (ch, r2) => let v := parseAttValue fuel q r2; (ch :: v.1, v.2.1, v.2.2)
        | none => let v := parseAttValue fuel q r; ('&' :: v.1, v.2.1, true)
      else if c = '<' then
        let v := parseAttValue fuel q r; ('<' :: v.1, v.2.1, true)
      else if c = '\t' || c = '\n' || c = '\r' then
        let v := parseAttValue fuel q r; (' ' :: v.1, v.2.1, v.2.2)
      else let v := parseAttValue fuel q r; (c :: v.1, v.2.1, v.2.2)

/-- Result of parsing the remainder of a start tag. -/
structure TagRes where
  attrs : List (Str × Str)
  selfClose : Bool
  rest : Str
  err : Bool
deriving DecidableEq, Repr

/-- Parses attributes up to `>` or `/>`.  Recovery behaviour: malformed
attributes (no `=`, unquoted value, stray characters, duplicated names) are
dropped with the error flag set, as libxml2 does. -/
def parseAttrs : Nat → List (Str × Str) → Bool → Str → TagRes
  | 0, acc, _, l => ⟨acc.reverse, false, l, true⟩
  | _ + 1, acc, _, [] => ⟨acc.reverse, false, [], true⟩
  | fuel + 1, acc, err, c :: r =>
      if isXmlWs c then parseAttrs fuel acc err r
      else if c = '>' then ⟨acc.reverse, false, r, err⟩
      else if c = '/' then
        if r.head? = some '>' then ⟨acc.reverse, true, r.tail, err⟩
        else parseAttrs fuel acc true r
      else if isNameStart c then
        let p := (c :: r).span isNameChar
        let r2 := p.2.dropWhile isXmlWs
        if r2.head? = some '=' then
          let r4 := r2.tail.dropWhile isXmlWs
          match r4.head? with
          | some q =>
              if q = '"' || q = sQuote then
                let v := parseAttValue (r4.tail.length + 1) q r4.tail
                let dup := acc.any (fun a => a.1 = p.1)
                let acc2 := if dup then acc else (p.1, v.1) :: acc
                parseAttrs fuel acc2 (err || v.2.2 || dup) v.2.1
              else parseAttrs fuel acc true r4
          | none => ⟨acc.reverse, false, [], true⟩
        else parseAttrs fuel acc true r2
      else parseAttrs fuel acc true r

/-- Skips up to and including the first occurrence of `t`. -/
def skipPast1 (t : Char) : Str → Str
  | [] => []
  | c :: r => if c = t then r else skipPast1 t r

/-- Skips up to and including the first occurrence of the pair `a b`. -/
def skipPast2 (a b : Char) : Str → Str
  | [] => []
  | [_] => []
  | c :: d :: r => if c = a && d = b then r else skipPast2 a b (d :: r)

/-- Skips up to and including the first occurrence of the triple `a b c`. -/
def skipPast3 (a b c : Char) : Str → Str
  | [] => []
  | [_] => []
  | [_, _] => []
  | x :: y :: z :: r =>
      if x = a && y = b && z = c then r else skipPast3 a b c (y :: z :: r)

/-- Result of parsing element content. -/
structure CRes where
  nodes : List XTree
  rest : Str
  err : Bool
deriving DecidableEq, Repr

/-- Flushes the pending-text accumulator onto the reversed node list. -/
def pushText (acc : Str) (ndsRev : List XTree) : List XTree :=
  if acc.isEmpty then ndsRev else XTree.text acc :: ndsRev

/-- Parses the content of an open element `tag` (with open `ancestors`)
until its end tag, an ancestor's end tag, or the end of input, with
libxml2-style recovery: an end tag matching an ancestor closes the current
element implicitly (and is left unconsumed); an end tag matching nothing is
dropped; comments, processing instructions and declarations are skipped;
a stray `<` becomes character data; unclosed elements are closed at the end
of input.  `acc` is the pending character data and `ndsRev` the reversed
list of completed child nodes. -/
def parseContent : Nat → Str → List Str → Str → List XTree → Bool → Str → CRes
  | 0, _, _, acc, ndsRev, _, input => ⟨(pushText acc ndsRev).reverse, input, true⟩
  | _ + 1, _, _, acc, ndsRev, _, [] => ⟨(pushText acc ndsRev).reverse, [], true⟩
  | fuel + 1, tag, ancestors, acc, ndsRev, err, c :: r =>
      if c = '<' then
        match r with
        | [] => parseContent fuel tag ancestors (acc ++ ['<']) ndsRev true []
        | c2 :: r2 =>
          if c2 = '/' then
            let p := r2.span isNameChar
            let r4 := p.2.dropWhile isXmlWs
            let q : Str × Bool :=
              if r4.head? = some '>' then (r4.tail, false) else (r4, true)
            if p.1 = tag then ⟨(pushText acc ndsRev).reverse, q.1, err || q.2⟩
            else if ancestors.contains p.1 then
              ⟨(pushText acc ndsRev).reverse, '<' :: '/' :: r2, true⟩
            else parseContent fuel tag ancestors acc ndsRev true q.1
          else if c2 = '!' then
            if r2.take 2 = ['-', '-'] then
              parseContent fuel tag ancestors acc ndsRev err
                (skipPast3 '-' '-' '>' (r2.drop 2))
            else parseContent fuel tag ancestors acc ndsRev true (skipPast1 '>' r2)
          else if c2 = '?' then
            parseContent fuel tag ancestors acc ndsRev err (skipPast2 '?' '>' r2)
          else if isNameStart c2 then
            let p := (c2 :: r2).span isNameChar
            let tr := parseAttrs (p.2.length + 1) [] false p.2
            if tr.selfClose then
              parseContent fuel tag ancestors []
                (XTree.elem p.1 tr.attrs .nil :: pushText acc ndsRev)
                (err || tr.err) tr.rest
            else
              let sub := parseContent fuel p.1 (tag :: ancestors) [] [] false tr.rest
              parseContent fuel tag ancestors []
                (XTree.elem p.1 tr.attrs (toForest sub.nodes) :: pushText acc ndsRev)
                (err || tr.err || sub.err) sub.rest
          else parseContent fuel tag ancestors (acc ++ ['<']) ndsRev true (c2 :: r2)
      else
        let v := takeText ((c :: r).length + 1) (c :: r)
        parseContent fuel tag ancestors (acc ++ v.1) ndsRev (err || v.2.2) v.2.1

/-- Parses a whole document: skips the declaration, comments, processing
instructions, doctype and (with an error) stray text before the root, then
parses the root element; `none` when no root start tag is ever found
(libxml2: `XMLSyntaxError`, even in recovery mode).  The Bool in the result
records whether any error was recovered from. -/
def parseDoc : Nat → Bool → Str → Option (XTree × Bool)
  | 0, _, _ => none
  | _ + 1, _, [] => none
  | fuel + 1, err, c :: r =>
      if isXmlWs c then parseDoc fuel err r
      else if c = '<' then
        match r with
        | [] => parseDoc fuel true []
        | c2 :: r2 =>
          if c2 = '?' then parseDoc fuel err (skipPast2 '?' '>' r2)
          else if c2 = '!' then
            if r2.take 2 = ['-', '-'] then
              parseDoc fuel err (skipPast3 '-' '-' '>' (r2.drop 2))
            else parseDoc fuel err (skipPast1 '>' r2)
          else if c2 = '/' then parseDoc fuel true (skipPast1 '>' r2)
          else if isNameStart c2 then
            let p := (c2 :: r2).span isNameChar
            let tr := parseAttrs (p.2.length + 1) [] false p.2
            if tr.selfClose then
              let rest2 := tr.rest.dropWhile isXmlWs
              some (.elem p.1 tr.attrs .nil, err || tr.err || !rest2.isEmpty)
            else
              let sub := parseContent (tr.rest.length + 1) p.1 [] [] [] false tr.rest
              let rest2 := sub.rest.dropWhile isXmlWs
              some (.elem p.1 tr.attrs (toForest sub.nodes),
                err || tr.err || sub.err || !rest2.isEmpty)
          else parseDoc fuel true (c2 :: r2)
      else parseDoc fuel true r

/-- Models `etree.fromstring(s.encode("utf-8"), etree.XMLParser(recover=True))`:
`none` when the parser raises because no tree is recoverable. -/
def parseRecover (s : Str) : Option (XTree × Bool) :=
  parseDoc (s.length + 1) false s

/-- Python exceptions that the modelled library calls can raise. -/
inductive PyError where
  | xmlSyntaxError : PyError
  | typeError : PyError
  | lookupError : PyError
deriving DecidableEq, Repr

/-- Source `validate_and_repair_xml`: parse with recovery, re-serialize.
The function has no error handling of its own; when the recovery parse can
produce no tree the library exception propagates (modelled as
`Except.error`). -/
def validate_and_repair_xml (xml_text : Str) : Except PyError Str :=
  match parseRecover xml_text with
  | none => .error .xmlSyntaxError
  | some (t, _) => .ok (xserialize t)

/-- Source `process_single_text`: clean, split, escape, wrap, repair.  Any
exception raised by `validate_and_repair_xml` propagates. -/
def process_single_text (text : Str) : Except PyError (Str × Nat) :=
  let cleaned := clean_illegal_xml_chars text
  let sentences := sentence_split cleaned
  let escaped := sentences.map escape_xml_entities
  let xml_raw := wrap_as_xml escaped
  match validate_and_repair_xml xml_raw with
  | .error e => .error e
  | .ok v => .ok (v, sentences.length)

example : validate_and_repair_xml [] = .error .xmlSyntaxError := rfl
example : parseRecover ("no markup at all".data) = none := by decide

/-! ## Preview, naming and decoding helpers -/

/-- Python `str.splitlines` line-boundary characters (besides `\r\n`). -/
def isLineBreakC (c : Char) : Bool :=
  c = '\n' || c = '\r' || c = '\x0b' || c = '\x0c' ||
  (0x1c ≤ c.toNat && c.toNat ≤ 0x1e) || c.toNat = 0x85 ||
  c.toNat = 0x2028 || c.toNat = 0x2029

/-- Python `str.splitlines` (no `keepends`): `acc` is the reversed current
line. -/
def splitlinesGo : Str → Str → List Str
  | acc, [] => if acc.isEmpty then [] else [acc.reverse]
  | acc, '\r' :: '\n' :: r => acc.reverse :: splitlinesGo [] r
  | acc, c :: r =>
      if isLineBreakC c then acc.reverse :: splitlinesGo [] r
      else splitlinesGo (c :: acc) r

def splitlines (s : Str) : List Str := splitlinesGo [] s

/-- Python's negative-start slice `lines[-tail:]` — note `lines[-0:]` is the
whole list. -/
def lastSlice (tail : Nat) (l : List Str) : List Str :=
  if tail = 0 then l else l.drop (l.length - tail)

/-- Source `limited_preview` (defaults `head=5, mid=5, tail=5` are passed
explicitly here). -/
def limited_preview (xml_text : Str) (head mid tail : Nat) : Str :=
  let lines := splitlines xml_text
  let total := lines.length
  if total ≤ head + mid + tail then xml_text
  else
    let middle_start := max (total / 2 - mid / 2) head
    let middle_end := middle_start + mid
    joinSep ['\n']
      (lines.take head ++ [("...".data)] ++
        ((lines.drop middle_start).take (middle_end - middle_start)) ++
        [("...".data)] ++ lastSlice tail lines)

/-- Index of the last occurrence of a character satisfying `p`. -/
def rfindIdx (p : Char → Bool) (l : Str) : Option Nat :=
  match l.reverse.findIdx? p with
  | none => none
  | some i => some (l.length - 1 - i)

/-- CPython `posixpath.splitext`: split at the last dot of the basename,
unless every character between the directory separator and that dot is a
dot (so dotfiles like `.bashrc` are not split). -/
def splitext (p : Str) : Str × Str :=
  match rfindIdx (fun c => c = '.') p with
  | none => (p, [])
  | some di =>
      let fi : Nat := match rfindIdx (fun c => c = '/') p with
        | none => 0
        | some si => si + 1
      if fi ≤ di then
        if ((p.drop fi).take (di - fi)).any (fun c => c ≠ '.') then
          (p.take di, p.drop di)
        else (p, [])
      else (p, [])

/-- Source: `os.path.splitext(f.name)[0] + ".xml"`. -/
def xml_name (name : Str) : Str := (splitext name).1 ++ (".xml".data)

/-- Source: pasted text is always named `"input_text.xml"`. -/
def pasted_output_name : Str := "input_text.xml".data

/-- Names of the entries written to the zip archive, one `writestr` per
output, in order (source lines 169-171). -/
def zip_entry_names (files : List Str) : List Str := files.map xml_name

/-- The Unicode replacement character U+FFFD. -/
def replChar : Char := Char.ofNat 0xFFFD

/-- Decodes one UTF-8 sequence starting with byte `b` (rest `r`): returns
the decoded character (the replacement character for an invalid prefix) and
the undecoded remainder. -/
def utf8Step (b : Nat) (r : List Nat) : Char × List Nat :=
  if b < 0x80 then (Char.ofNat b, r)
  else if 0xC2 ≤ b && b ≤ 0xDF then
    match r with
    | b2 :: r2 =>
        if 0x80 ≤ b2 && b2 ≤ 0xBF then
          (Char.ofNat ((b - 0xC0) * 64 + (b2 - 0x80)), r2)
        else (replChar, b2 :: r2)
    | [] => (replChar, [])
  else if 0xE0 ≤ b && b ≤ 0xEF then
    match r with
    | b2 :: b3 :: r3 =>
        if (0x80 ≤ b2 && b2 ≤ 0xBF) && (0x80 ≤ b3 && b3 ≤ 0xBF) &&
           (b ≠ 0xE0 || 0xA0 ≤ b2) && (b ≠ 0xED || b2 ≤ 0x9F) then
          (Char.ofNat ((b - 0xE0) * 4096 + (b2 - 0x80) * 64 + (b3 - 0x80)), r3)
        else (replChar, r)
    | _ => (replChar, r)
  else if 0xF0 ≤ b && b ≤ 0xF4 then
    match r with
    | b2 :: b3 :: b4 :: r4 =>
        if (0x80 ≤ b2 && b2 ≤ 0xBF) && (0x80 ≤ b3 && b3 ≤ 0xBF) &&
           (0x80 ≤ b4 && b4 ≤ 0xBF) &&
           (b ≠ 0xF0 || 0x90 ≤ b2) && (b ≠ 0xF4 || b2 ≤ 0x8F) then
          (Char.ofNat ((b - 0xF0) * 262144 + (b2 - 0x80) * 4096 +
              (b3 - 0x80) * 64 + (b4 - 0x80)), r4)
        else (replChar, r)
    | _ => (replChar, r)
  else (replChar, r)

def utf8DecodeAux : Nat → List Nat → Str
  | 0, _ => []
  | _ + 1, [] => []
  | fuel + 1, b :: r =>
      let s := utf8Step b r
      s.1 :: utf8DecodeAux fuel s.2

/-- UTF-8 decoding with `errors="replace"`: every byte sequence that is not
a valid UTF-8 encoding contributes replacement characters; never fails. -/
def utf8_decode_replace (bytes : List Nat) : Str :=
  utf8DecodeAux (bytes.length + 1) bytes

/-- The `try` block of `detect_and_decode`: `chardet.detect` always returns
a dict with an `encoding` key whose value may be `None` (so
`result.get("encoding", "utf-8")` is just that value); `bytes.decode(None)`
raises `TypeError`, and decoding under an unknown/unusable label raises
(e.g. `LookupError`) — both modelled through the `codecs` oracle, which
returns `none` when `bytes.decode(label, errors="replace")` would raise. -/
def try_decode (codecs : Str → List Nat → Option Str) (guess : Option Str)
    (file_bytes : List Nat) : Except PyError (Str × Str) :=
  match guess with
  | none => .error .typeError
  | some enc =>
      match codecs enc file_bytes with
      | none => .error .lookupError
      | some text => .ok (text, enc)

/-- Source `detect_and_decode`, parameterized by the detector's guess and
the codec registry: on any exception in the `try` block it falls back to
UTF-8 with replacement. -/
def detect_and_decode (codecs : Str → List Nat → Option Str)
    (guess : Option Str) (file_bytes : List Nat) : Str × Str :=
  match try_decode codecs guess file_bytes with
  | .ok r => r
  | .error _ => (utf8_decode_replace file_bytes, "utf-8".data)

example : splitlines ("a\nb\nc".data) = [['a'], ['b'], ['c']] := by decide
example : xml_name ("report.txt".data) = ("report.xml".data) := by decide
example : xml_name (".bashrc".data) = (".bashrc.xml".data) := by decide
example : utf8_decode_replace [0x63, 0x61, 0x66, 0xC3, 0xA9] = ("café".data) := by decide
example : utf8_decode_replace [0x63, 0xFF] = ['c', replChar] := by decide

/-! ## Lemmas and claim theorems -/

theorem charReplace_append (c : Char) (rep x y : Str) :
    charReplace c rep (x ++ y) = charReplace c rep x ++ charReplace c rep y := by
  induction x with
  | nil => rfl
  | cons a r ih => simp [charReplace, ih]

/-- Per-character expansion performed by one application of
`escape_xml_entities`. -/
def pyEscChar (c : Char) : Str :=
  if c = '&' then "&amp;".data
  else if c = '<' then "&lt;".data
  else if c = '>' then "&gt;".data
  else if c = '"' then "&quot;".data
  else if c = '\'' then "&apos;".data
  else [c]

theorem escape_singleton (a : Char) :
    escape_xml_entities [a] = pyEscChar a := by
  by_cases h1 : a = '&'
  · subst h1; decide
  · by_cases h2 : a = '<'
    · subst h2; decide
    · by_cases h3 : a = '>'
      · subst h3; decide
      · by_cases h4 : a = '"'
        · subst h4; decide
        · by_cases h5 : a = '\''
          · subst h5; decide
          · simp [escape_xml_entities, charReplace, pyEscChar, h1, h2, h3, h4, h5]

theorem escape_append (x y : Str) :
    escape_xml_entities (x ++ y) =
      escape_xml_entities x ++ escape_xml_entities y := by
  simp [escape_xml_entities, charReplace_append]

theorem escape_eq_concatMap (x : Str) :
    escape_xml_entities x = concatMapStr pyEscChar x := by
  induction x with
  | nil => rfl
  | cons a r ih =>
      have h : a :: r = [a] ++ r := rfl
      rw [h, escape_append, escape_singleton, ih]
      rfl

/-- C5: `clean_illegal_xml_chars` is idempotent. -/
theorem C5_sanitize_idempotent (x : Str) :
    clean_illegal_xml_chars (clean_illegal_xml_chars x) = clean_illegal_xml_chars x := by
  simp [clean_illegal_xml_chars, List.filter_filter]

/-- C3 counterexample: one application of `escape_xml_entities` to the
already-escaped literal text `&amp;` does double-escape it into
`&amp;amp;`, contradicting the claim that this never happens. -/
theorem C3_counterexample :
    escape_xml_entities ("&amp;".data) = ("&amp;amp;".data) ∧
    ("&amp;amp;".data : Str) ≠ ("&amp;".data) := by
  constructor
  · decide
  · decide

/-- C3 (amended): ampersand is replaced before the other four reserved
characters, so `escape("a & < b") = "a &amp; &lt; b"` and one application
expands each input character exactly once (the `&` introduced by a
replacement is never re-escaped within the same application); but the
function is not idempotent: applied to already-escaped input such as
`&amp;` it double-escapes, producing `&amp;amp;`. -/
theorem C3_escape_order :
    escape_xml_entities ("a & < b".data) = ("a &amp; &lt; b".data) ∧
    (∀ x : Str, escape_xml_entities x = concatMapStr pyEscChar x) ∧
    escape_xml_entities ("&amp;".data) = ("&amp;amp;".data) := by
  refine ⟨by decide, escape_eq_concatMap, by decide⟩

/-- C2 counterexample: on the empty input (no tree recoverable — libxml2
raises `XMLSyntaxError` even in recovery mode), `validate_and_repair_xml`
does not return any tagged success/failure value: the exception propagates
(modelled by `Except.error`). -/
theorem C2_counterexample :
    parseRecover [] = none ∧
    validate_and_repair_xml [] = Except.error PyError.xmlSyntaxError ∧
    ∀ v : Str, validate_and_repair_xml [] ≠ Except.ok v := by
  refine ⟨rfl, rfl, fun v h => by simp [validate_and_repair_xml, parseRecover, parseDoc] at h⟩

/-- C2 (amended): when the recovery parser can recover no tree at all,
`validate_and_repair_xml` has no handled failure outcome: the library
exception propagates out of the function (and out of its caller), rather
than being returned as a tagged success/failure result. -/
theorem C2_total_failure_raises (s : Str) (h : parseRecover s = none) :
    validate_and_repair_xml s = Except.error PyError.xmlSyntaxError := by
  simp [validate_and_repair_xml, h]

theorem C2_total_failure_raises_witness :
    parseRecover [] = none ∧
    validate_and_repair_xml [] = Except.error PyError.xmlSyntaxError :=
  ⟨rfl, C2_total_failure_raises [] rfl⟩

/-- C6: `detect_and_decode` always returns a text and an encoding label;
whenever the attempted decode under the guessed label raises (including a
missing label, where `bytes.decode(None)` raises `TypeError`), it falls
back to UTF-8 decoding with replacement, labelled `utf-8`. -/
theorem C6_detect_and_decode_total (codecs : Str → List Nat → Option Str)
    (guess : Option Str) (file_bytes : List Nat) :
    (∃ t e, detect_and_decode codecs guess file_bytes = (t, e)) ∧
    (∀ err, try_decode codecs guess file_bytes = Except.error err →
      detect_and_decode codecs guess file_bytes =
        (utf8_decode_replace file_bytes, ("utf-8".data))) := by
  constructor
  · exact ⟨_, _, rfl⟩
  · intro err h
    simp [detect_and_decode, h]

theorem C6_detect_and_decode_total_witness :
    try_decode (fun _ _ => none) (some ("latin-1".data)) [0xFF] =
      Except.error PyError.lookupError ∧
    detect_and_decode (fun _ _ => none) (some ("latin-1".data)) [0xFF] =
      (utf8_decode_replace [0xFF], ("utf-8".data)) :=
  ⟨rfl, (C6_detect_and_decode_total (fun _ _ => none) (some ("latin-1".data)) [0xFF]).2
    PyError.lookupError rfl⟩

theorem splitext_fst_cases (nm : Str) :
    (splitext nm).1 = nm ∨ ∃ k, (splitext nm).1 = nm.take k := by
  unfold splitext
  cases h : rfindIdx (fun c => c = '.') nm with
  | none => exact Or.inl rfl
  | some di =>
      cases h2 : rfindIdx (fun c => c = '/') nm with
      | none =>
          simp only
          split
          · split
            · exact Or.inr ⟨di, rfl⟩
            · exact Or.inl rfl
          · exact Or.inl rfl
      | some si =>
          simp only
          split
          · split
            · exact Or.inr ⟨di, rfl⟩
            · exact Or.inl rfl
          · exact Or.inl rfl

theorem xml_name_no_slash (nm : Str) (h : '/' ∉ nm) : '/' ∉ xml_name nm := by
  intro hmem
  unfold xml_name at hmem
  rcases List.mem_append.mp hmem with hm | hm
  · rcases splitext_fst_cases nm with he | ⟨k, he⟩
    · rw [he] at hm; exact h hm
    · rw [he] at hm
      exact h (List.mem_of_mem_take hm)
  · exact absurd hm (by decide)

/-- C8: every output name is the input name with its (`splitext`) extension
replaced by `.xml` (`report.txt` becomes `report.xml`); pasted text gets
the fixed name `input_text.xml`; a batch of more than one document yields
one archive entry per document, named by the same rule, with no nested
paths (given the browser-supplied names are flat, i.e. contain no `/`). -/
theorem C8_output_naming (files : List Str) (h : 1 < files.length)
    (hflat : ∀ n ∈ files, '/' ∉ n) :
    xml_name ("report.txt".data) = ("report.xml".data) ∧
    pasted_output_name = ("input_text.xml".data) ∧
    (∀ nm : Str, xml_name nm = (splitext nm).1 ++ (".xml".data)) ∧
    (zip_entry_names files).length = files.length ∧
    zip_entry_names files = files.map xml_name ∧
    ∀ e ∈ zip_entry_names files, '/' ∉ e := by
  have hlast : ∀ e ∈ zip_entry_names files, '/' ∉ e := by
    intro e he
    simp only [zip_entry_names, List.mem_map] at he
    obtain ⟨n, hn, rfl⟩ := he
    exact xml_name_no_slash n (hflat n hn)
  exact ⟨by decide, rfl, fun _ => rfl, by simp [zip_entry_names], rfl, hlast⟩

theorem C8_output_naming_witness :
    1 < ([("a.txt".data), ("b.md".data)] : List Str).length ∧
    (∀ n ∈ ([("a.txt".data), ("b.md".data)] : List Str), '/' ∉ n) ∧
    (zip_entry_names [("a.txt".data), ("b.md".data)]).length = 2 ∧
    ∀ e ∈ zip_entry_names [("a.txt".data), ("b.md".data)], '/' ∉ e := by
  have happ := C8_output_naming [("a.txt".data), ("b.md".data)] (by decide) (by decide)
  exact ⟨by decide, by decide, happ.2.2.2.1, happ.2.2.2.2.2⟩

/-- C7 counterexample: with `tail = 0` the slice `lines[-tail:]` is the
whole document, so the "last tail lines" part of the claim fails: a 3-line
input previewed with `head=1, mid=1, tail=0` returns all three lines after
the second marker instead of none. -/
theorem C7_counterexample :
    1 + 1 + 0 < (splitlines ("a\nb\nc".data)).length ∧
    limited_preview ("a\nb\nc".data) 1 1 0 = ("a\n...\nb\n...\na\nb\nc".data) ∧
    ("a\n...\nb\n...\na\nb\nc".data : Str) ≠ ("a\n...\nb\n...".data) := by
  exact ⟨by decide, by decide, by decide⟩

/-- C7 (amended): for `tail ≥ 1`, `limited_preview` returns its input
unchanged when the line count is at most `head + mid + tail`, and otherwise
returns the first `head` lines, a `...` marker, exactly `mid` lines
starting at the midpoint window (clamped to start no earlier than `head`),
another marker, and the last `tail` lines, joined by newlines — in total
`head + mid + tail + 2` parts (so 17 for the defaults on a 20-line input).
For `tail = 0` the final slice degenerates to the whole document. -/
theorem C7_preview_behaviour (text : Str) (head mid tail : Nat) (ht : 1 ≤ tail) :
    ((splitlines text).length ≤ head + mid + tail →
      limited_preview text head mid tail = text) ∧
    (head + mid + tail < (splitlines text).length →
      limited_preview text head mid tail =
        joinSep ['\n']
          ((splitlines text).take head ++ [("...".data)] ++
            ((splitlines text).drop (max ((splitlines text).length / 2 - mid / 2) head)).take mid ++
            [("...".data)] ++
            (splitlines text).drop ((splitlines text).length - tail)) ∧
      ((splitlines text).take head).length = head ∧
      (((splitlines text).drop (max ((splitlines text).length / 2 - mid / 2) head)).take mid).length = mid ∧
      ((splitlines text).drop ((splitlines text).length - tail)).length = tail ∧
      ((splitlines text).take head ++ [("...".data)] ++
          ((splitlines text).drop (max ((splitlines text).length / 2 - mid / 2) head)).take mid ++
          [("...".data)] ++
          (splitlines text).drop ((splitlines text).length - tail)).length =
        head + mid + tail + 2) := by
  constructor
  · intro hle
    simp only [limited_preview]
    rw [if_pos hle]
  · intro hgt
    have hms : max ((splitlines text).length / 2 - mid / 2) head + mid ≤
        (splitlines text).length := by
      rw [Nat.max_def]; split <;> omega
    have htake : ((splitlines text).take head).length = head := by
      rw [List.length_take]; omega
    have hwin : (((splitlines text).drop
        (max ((splitlines text).length / 2 - mid / 2) head)).take mid).length = mid := by
      rw [List.length_take, List.length_drop]; omega
    have hdrop : ((splitlines text).drop ((splitlines text).length - tail)).length = tail := by
      rw [List.length_drop]; omega
    refine ⟨?_, htake, hwin, hdrop, by simp [htake, hwin, hdrop]; omega⟩
    simp only [limited_preview]
    rw [if_neg (by omega)]
    have hls : lastSlice tail (splitlines text) =
        (splitlines text).drop ((splitlines text).length - tail) := by
      unfold lastSlice
      rw [if_neg (by omega)]
    rw [hls]
    have hme : max ((splitlines text).length / 2 - mid / 2) head + mid -
        max ((splitlines text).length / 2 - mid / 2) head = mid := by omega
    rw [hme]

theorem C7_preview_behaviour_witness :
    (1 ≤ 5) ∧ (splitlines ("l1\nl2\nl3".data)).length ≤ 5 + 5 + 5 ∧
    limited_preview ("l1\nl2\nl3".data) 5 5 5 = ("l1\nl2\nl3".data) :=
  ⟨by decide, by decide,
    (C7_preview_behaviour ("l1\nl2\nl3".data) 5 5 5 (by decide)).1 (by decide)⟩

/-- Whether the text contains a `.`, `!` or `?` immediately followed by a
whitespace character (the separator pattern of `sentence_split`). -/
def hasPunctWs : Str → Bool
  | a :: b :: r => (isTermPunct a && isPySpace b) || hasPunctWs (b :: r)
  | _ => false

theorem hasPunctWs_append_right (u t : Str) (h : hasPunctWs t = true) :
    hasPunctWs (u ++ t) = true := by
  induction u with
  | nil => simpa using h
  | cons a u ih =>
      rw [List.cons_append]
      cases hu : u ++ t with
      | nil =>
          rcases List.append_eq_nil.mp hu with ⟨rfl, rfl⟩
          simp [hasPunctWs] at h
      | cons b r =>
          rw [hu] at ih
          show hasPunctWs (a :: b :: r) = true
          simp [hasPunctWs, ih]

theorem hasPunctWs_append_left (t u : Str) (h : hasPunctWs t = true) :
    hasPunctWs (t ++ u) = true := by
  induction t with
  | nil => simp [hasPunctWs] at h
  | cons a t ih =>
      cases t with
      | nil => simp [hasPunctWs] at h
      | cons b r =>
          simp only [hasPunctWs, Bool.or_eq_true] at h
          show hasPunctWs (a :: b :: (r ++ u)) = true
          rcases h with h | h
          · simp [hasPunctWs, h]
          · have h2 := ih h
            simp only [hasPunctWs, Bool.or_eq_true]
            right
            simpa using h2

theorem pyStrip_split (x : Str) :
    x.dropWhile isPySpace =
      pyStrip x ++ ((x.dropWhile isPySpace).reverse.takeWhile isPySpace).reverse := by
  unfold pyStrip
  have h2 := List.takeWhile_append_dropWhile (p := isPySpace)
      (l := (x.dropWhile isPySpace).reverse)
  calc x.dropWhile isPySpace
      = ((x.dropWhile isPySpace).reverse).reverse := (List.reverse_reverse _).symm
    _ = ((x.dropWhile isPySpace).reverse.takeWhile isPySpace ++
          (x.dropWhile isPySpace).reverse.dropWhile isPySpace).reverse := by rw [h2]
    _ = _ := by rw [List.reverse_append]

theorem pyStrip_noPunctWs (x : Str) (h : hasPunctWs x = false) :
    hasPunctWs (pyStrip x) = false := by
  have hd : hasPunctWs (x.dropWhile isPySpace) = false := by
    cases ht : hasPunctWs (x.dropWhile isPySpace)
    · rfl
    · exfalso
      have h3 := hasPunctWs_append_right (x.takeWhile isPySpace) _ ht
      rw [List.takeWhile_append_dropWhile] at h3
      exact absurd h (by simp [h3])
  cases ht : hasPunctWs (pyStrip x)
  · rfl
  · exfalso
    have h3 := hasPunctWs_append_left _
      (((x.dropWhile isPySpace).reverse.takeWhile isPySpace).reverse) ht
    rw [← pyStrip_split] at h3
    exact absurd hd (by simp [h3])

theorem collapseWs_cons (b : Char) (r : Str) :
    ∃ t, collapseWs (b :: r) = (if isPySpace b then ' ' else b) :: t := by
  induction r generalizing b with
  | nil =>
      refine ⟨[], ?_⟩
      by_cases hb : isPySpace b <;> simp [collapseWs, hb]
  | cons c r ih =>
      obtain ⟨t, ht⟩ := ih c
      by_cases hb : isPySpace b <;> by_cases hc : isPySpace c
      · exact ⟨t, by simp only [collapseWs, hb, hc, Bool.and_self, if_true, hb]; simpa [hc] using ht⟩
      · exact ⟨collapseWs (c :: r), by simp [collapseWs, hb, hc]⟩
      · exact ⟨collapseWs (c :: r), by simp [collapseWs, hb, hc]⟩
      · exact ⟨collapseWs (c :: r), by simp [collapseWs, hb, hc]⟩

theorem collapseWs_noPunctWs (s : Str) (h : hasPunctWs s = false) :
    hasPunctWs (collapseWs s) = false := by
  induction s using collapseWs.induct with
  | case1 => simp [collapseWs, hasPunctWs]
  | case2 c hc => simp [collapseWs, hc, hasPunctWs]
  | case3 c hc => simp [collapseWs, hc, hasPunctWs]
  | case4 a b r hab ih =>
      rw [show collapseWs (a :: b :: r) = collapseWs (b :: r) from by
        simp only [collapseWs, hab, if_true]]
      apply ih
      simp only [hasPunctWs, Bool.or_eq_false_iff] at h
      exact h.2
  | case5 a b r hab ih =>
      have hgoal : collapseWs (a :: b :: r) =
          (if isPySpace a then ' ' else a) :: collapseWs (b :: r) := by
        simp only [collapseWs, if_neg hab]
      rw [hgoal]
      obtain ⟨t, ht⟩ := collapseWs_cons b r
      rw [ht]
      simp only [hasPunctWs, Bool.or_eq_false_iff] at h ⊢
      refine ⟨?_, ?_⟩
      · by_cases ha : isPySpace a
        · rw [if_pos ha]
          simp [isTermPunct]
        · rw [if_neg ha]
          by_cases hb : isPySpace b
          · rw [if_pos hb]
            have h1 : isTermPunct a = false := by
              rcases Bool.and_eq_false_iff.mp h.1 with h1 | h1
              · exact h1
              · exact absurd h1 (by simp [hb])
            simp [h1]
          · rw [if_neg hb]
            exact h.1
      · rw [← ht]
        exact ih h.2

theorem reSplitPW_no_sep (fuel : Nat) (t : Str) (h : hasPunctWs t = false)
    (hf : t.length < fuel) : reSplitPW fuel t = [t] := by
  induction fuel generalizing t with
  | zero => omega
  | succ fuel ih =>
      cases t with
      | nil => rfl
      | cons a r =>
          cases r with
          | nil =>
              cases fuel with
              | zero => simp at hf
              | succ f => simp [reSplitPW]
          | cons b rr =>
              simp only [hasPunctWs, Bool.or_eq_false_iff] at h
              have hrec := ih (b :: rr) h.2 (by simp at hf ⊢; omega)
              simp only [reSplitPW, h.1, Bool.false_eq_true, if_false, hrec]

theorem pyStrip_eq_nil_iff (s : Str) : pyStrip s = [] ↔ s.all isPySpace := by
  constructor
  · intro h
    have h1 : (s.dropWhile isPySpace).reverse.dropWhile isPySpace = [] := by
      unfold pyStrip at h
      simpa using congrArg List.reverse h
    have h2 : ∀ x ∈ (s.dropWhile isPySpace).reverse, isPySpace x :=
      List.dropWhile_eq_nil_iff.mp h1
    rw [List.all_eq_true]
    intro x hx
    rw [← List.takeWhile_append_dropWhile (p := isPySpace) (l := s)] at hx
    rcases List.mem_append.mp hx with hx | hx
    · exact List.mem_takeWhile_imp hx
    · exact h2 x (List.mem_reverse.mpr hx)
  · intro h
    have h1 : s.dropWhile isPySpace = [] := by
      rw [List.dropWhile_eq_nil_iff]
      intro x hx
      exact List.all_eq_true.mp h x hx
    unfold pyStrip
    rw [h1]
    rfl

theorem pyStrip_head_not_space (s : Str) (hne : pyStrip s ≠ []) :
    ∃ a t, pyStrip s = a :: t ∧ isPySpace a = false := by
  have hsp := pyStrip_split s
  cases hd : s.dropWhile isPySpace with
  | nil =>
      exfalso
      rw [hd] at hsp
      exact hne (List.append_eq_nil.mp hsp.symm).1
  | cons a t =>
      have ha : isPySpace a = false := by
        have := List.head?_dropWhile_not isPySpace s
        rw [hd] at this
        simpa using this
      cases hps : pyStrip s with
      | nil => exact absurd hps hne
      | cons p ps =>
          refine ⟨p, ps, rfl, ?_⟩
          rw [hd, hps] at hsp
          have : a = p := by
            have := congrArg List.head? hsp
            simpa using this
          rw [← this]
          exact ha

/-- C4 counterexample: the single-space input contains no `.`, `!` or `?`
followed by whitespace, yet `sentence_split` returns the empty list rather
than one element equal to the whitespace-normalized trimmed text. -/
theorem C4_counterexample :
    hasPunctWs ([' ']) = false ∧
    sentence_split ([' ']) = [] ∧
    sentence_split ([' ']) ≠ [collapseWs (pyStrip ([' ']))] := by
  exact ⟨by decide, by decide, by decide⟩

/-- C4 (amended): the two concrete examples of the claim hold, and every
text that contains no `.`, `!` or `?` followed by whitespace *and is not
whitespace-only* splits into exactly one sentence: the whole
whitespace-normalized trimmed text.  (For whitespace-only text the single
empty segment is dropped and the result is empty.) -/
theorem C4_sentence_split (x : Str) (h1 : hasPunctWs x = false)
    (h2 : pyStrip x ≠ []) :
    sentence_split ("Hello world. How are you? Fine!".data) =
      [("Hello world.".data), ("How are you?".data), ("Fine!".data)] ∧
    sentence_split [] = [] ∧
    sentence_split x = [collapseWs (pyStrip x)] := by
  refine ⟨by decide, by decide, ?_⟩
  have hnp : hasPunctWs (collapseWs (pyStrip x)) = false :=
    collapseWs_noPunctWs _ (pyStrip_noPunctWs x h1)
  obtain ⟨a, t, hat, ha⟩ := pyStrip_head_not_space x h2
  have hhead : ∃ u, collapseWs (pyStrip x) = a :: u := by
    obtain ⟨u, hu⟩ := collapseWs_cons a t
    rw [← hat] at hu
    rw [hu, if_neg (by simp [ha])]
    exact ⟨u, rfl⟩
  obtain ⟨u, hu⟩ := hhead
  have hkeep : (pyStrip (collapseWs (pyStrip x))).isEmpty = false := by
    cases hh : pyStrip (collapseWs (pyStrip x)) with
    | cons _ _ => rfl
    | nil =>
        exfalso
        have hall := (pyStrip_eq_nil_iff _).mp hh
        rw [hu] at hall
        have hws := List.all_eq_true.mp hall a (by simp)
        rw [ha] at hws
        simp at hws
  show sentence_split x = [collapseWs (pyStrip x)]
  simp only [sentence_split]
  rw [reSplitPW_no_sep _ _ hnp (by omega)]
  simp [List.filter, hkeep]

theorem C4_sentence_split_witness :
    hasPunctWs ("no punctuation here".data) = false ∧
    pyStrip ("no punctuation here".data) ≠ [] ∧
    sentence_split ("no punctuation here".data) = [("no punctuation here".data)] := by
  have happ := C4_sentence_split ("no punctuation here".data) (by decide) (by decide)
  refine ⟨by decide, by decide, ?_⟩
  rw [happ.2.2]
  decide

/-! ## Well-formedness invariant of parsed trees, and roundtrip lemmas -/

def validName (s : Str) : Bool :=
  match s with
  | [] => false
  | c :: r => isNameStart c && r.all isNameChar

def nodupKeys : List (Str × Str) → Bool
  | [] => true
  | a :: r => !(r.any (fun b => b.1 = a.1)) && nodupKeys r

def validAttrs (l : List (Str × Str)) : Bool :=
  l.all (fun a => validName a.1) && nodupKeys l

mutual
def wfTree : XTree → Bool
  | .text s => !s.isEmpty
  | .elem tag attrs f => validName tag && validAttrs attrs && wfForest f

def wfForest : XForest → Bool
  | .nil => true
  | .cons x f => wfTree x && !(isTextNode x && headIsText f) && wfForest f
end

def headText : List XTree → Bool
  | .text _ :: _ => true
  | _ => false

def wfNodes : List XTree → Bool
  | [] => true
  | x :: l => wfTree x && !(isTextNode x && headText l) && wfNodes l

theorem toForest_ofForest (f : XForest) : toForest (ofForest f) = f := by
  induction f using ofForest.induct with
  | case1 => rfl
  | case2 x f ih => simp [ofForest, toForest, ih]

theorem ofForest_toForest (l : List XTree) : ofForest (toForest l) = l := by
  induction l with
  | nil => rfl
  | cons x l ih => simp [ofForest, toForest, ih]

theorem headIsText_toForest (l : List XTree) : headIsText (toForest l) = headText l := by
  cases l with
  | nil => rfl
  | cons x l => cases x <;> rfl

theorem wfForest_toForest (l : List XTree) : wfForest (toForest l) = wfNodes l := by
  induction l with
  | nil => rfl
  | cons x l ih => simp [toForest, wfForest, wfNodes, headIsText_toForest, ih]

theorem wfNodes_ofForest (f : XForest) (h : wfForest f = true) :
    wfNodes (ofForest f) = true := by
  rw [← wfForest_toForest, toForest_ofForest]
  exact h

theorem span_all_not (p : Char → Bool) (nm rest : Str)
    (h1 : ∀ c ∈ nm, p c = true)
    (h2 : rest = [] ∨ ∃ c rs, rest = c :: rs ∧ p c = false) :
    (nm ++ rest).span p = (nm, rest) := by
  rw [List.span_eq_take_drop]
  induction nm with
  | nil =>
      rcases h2 with rfl | ⟨c, rs, rfl, hc⟩
      · rfl
      · simp [List.takeWhile_cons, List.dropWhile_cons, hc]
  | cons a nm ih =>
      have ha := h1 a (by simp)
      have ih2 := ih (fun c hc => h1 c (by simp [hc]))
      simp only [List.cons_append, List.takeWhile_cons, List.dropWhile_cons, ha]
      simp only [Prod.mk.injEq] at ih2 ⊢
      exact ⟨by simp [ih2.1], ih2.2⟩

theorem validName_notNameChar_span (tag rest : Str) (h : validName tag = true)
    (h2 : rest = [] ∨ ∃ c rs, rest = c :: rs ∧ isNameChar c = false) :
    (tag ++ rest).span isNameChar = (tag, rest) := by
  apply span_all_not
  · intro c hc
    cases tag with
    | nil => simp [validName] at h
    | cons t ts =>
        simp only [validName, Bool.and_eq_true] at h
        rcases List.mem_cons.mp hc with rfl | hc
        · simp [isNameChar, h.1]
        · exact List.all_eq_true.mp h.2 c hc
  · exact h2

theorem parseEntity_amp (K : Str) : parseEntity (("amp;".data) ++ K) = some ('&', K) := rfl
theorem parseEntity_lt (K : Str) : parseEntity (("lt;".data) ++ K) = some ('<', K) := rfl
theorem parseEntity_gt (K : Str) : parseEntity (("gt;".data) ++ K) = some ('>', K) := rfl
theorem parseEntity_quot (K : Str) : parseEntity (("quot;".data) ++ K) = some ('"', K) := rfl
theorem parseEntity_apos (K : Str) : parseEntity (("apos;".data) ++ K) = some ('\'', K) := rfl

theorem parseEntity_tab (K : Str) : parseEntity (("#9;".data) ++ K) = some ('\t', K) := by
  show parseCharRef (('9' :: ';' :: K)) = some ('\t', K)
  unfold parseCharRef
  simp [List.span_eq_take_drop, List.takeWhile_cons, List.dropWhile_cons, xmlCharVal]

theorem parseEntity_lf (K : Str) : parseEntity (("#10;".data) ++ K) = some ('\n', K) := by
  show parseCharRef (('1' :: '0' :: ';' :: K)) = some ('\n', K)
  unfold parseCharRef
  simp [List.span_eq_take_drop, List.takeWhile_cons, List.dropWhile_cons, xmlCharVal]

theorem parseEntity_cr (K : Str) : parseEntity (("#13;".data) ++ K) = some ('\r', K) := by
  show parseCharRef (('1' :: '3' :: ';' :: K)) = some ('\r', K)
  unfold parseCharRef
  simp [List.span_eq_take_drop, List.takeWhile_cons, List.dropWhile_cons, xmlCharVal]

/-- The shape of per-character escape expansions that `takeText` decodes
back to the original character: either a literal safe character, or `&`
followed by a reference that `parseEntity` resolves. -/
def goodTextExp (f : Char → Str) : Prop :=
  ∀ c : Char, (f c = [c] ∧ c ≠ '&' ∧ c ≠ '<') ∨
    (∃ d, f c = '&' :: d ∧ d ≠ [] ∧ ∀ K, parseEntity (d ++ K) = some (c, K))

theorem goodTextExp_escTextC : goodTextExp escTextC := by
  intro c
  by_cases h1 : c = '&'
  · subst h1
    exact Or.inr ⟨"amp;".data, rfl, by decide, parseEntity_amp⟩
  · by_cases h2 : c = '<'
    · subst h2
      exact Or.inr ⟨"lt;".data, rfl, by decide, parseEntity_lt⟩
    · by_cases h3 : c = '>'
      · subst h3
        exact Or.inr ⟨"gt;".data, rfl, by decide, parseEntity_gt⟩
      · by_cases h4 : c = '\r'
        · subst h4
          exact Or.inr ⟨"#13;".data, rfl, by decide, parseEntity_cr⟩
        · exact Or.inl ⟨by simp [escTextC, h1, h2, h3, h4], h1, h2⟩

theorem goodTextExp_pyEscChar : goodTextExp pyEscChar := by
  intro c
  by_cases h1 : c = '&'
  · subst h1
    exact Or.inr ⟨"amp;".data, rfl, by decide, parseEntity_amp⟩
  · by_cases h2 : c = '<'
    · subst h2
      exact Or.inr ⟨"lt;".data, rfl, by decide, parseEntity_lt⟩
    · by_cases h3 : c = '>'
      · subst h3
        exact Or.inr ⟨"gt;".data, rfl, by decide, parseEntity_gt⟩
      · by_cases h4 : c = '"'
        · subst h4
          exact Or.inr ⟨"quot;".data, rfl, by decide, parseEntity_quot⟩
        · by_cases h5 : c = '\''
          · subst h5
            exact Or.inr ⟨"apos;".data, rfl, by decide, parseEntity_apos⟩
          · exact Or.inl ⟨by simp [pyEscChar, h1, h2, h3, h4, h5], h1, h2⟩

theorem takeText_concatMap (f : Char → Str) (hf : goodTextExp f) (s : Str) :
    ∀ (K : Str), (K = [] ∨ ∃ rs, K = '<' :: rs) →
    ∀ fuel, (concatMapStr f s ++ K).length < fuel →
      takeText fuel (concatMapStr f s ++ K) = (s, K, false) := by
  induction s with
  | nil =>
      intro K hK fuel hfuel
      cases fuel with
      | zero => exact absurd hfuel (Nat.not_lt_zero _)
      | succ fu =>
          rcases hK with rfl | ⟨rs, rfl⟩
          · rfl
          · rfl
  | cons c s ih =>
      intro K hK fuel hfuel
      rcases hf c with ⟨hfc, hne1, hne2⟩ | ⟨d, hfc, hdne, hent⟩
      · have hexp : concatMapStr f (c :: s) ++ K = c :: (concatMapStr f s ++ K) := by
          simp [concatMapStr, hfc]
        rw [hexp] at hfuel ⊢
        cases fuel with
        | zero => exact absurd hfuel (Nat.not_lt_zero _)
        | succ fu =>
            have hrec := ih K hK fu (by
              simp only [List.length_cons] at hfuel
              omega)
            simp only [takeText, hne1, hne2, if_false, hrec]
      · have hexp : concatMapStr f (c :: s) ++ K =
            '&' :: (d ++ (concatMapStr f s ++ K)) := by
          simp [concatMapStr, hfc]
        rw [hexp] at hfuel ⊢
        cases fuel with
        | zero => exact absurd hfuel (Nat.not_lt_zero _)
        | succ fu =>
            have hrec := ih K hK fu (by
              have hd1 : 1 ≤ d.length := by
                cases d with
                | nil => exact absurd rfl hdne
                | cons _ _ => simp
              simp only [List.length_cons, List.length_append] at hfuel ⊢
              omega)
            simp [takeText, hent, hrec]

/-- Expansion shapes that `parseAttValue` (inside double quotes) decodes
back to the original character. -/
def goodAttrExp (f : Char → Str) : Prop :=
  ∀ c : Char, (f c = [c] ∧ c ≠ '"' ∧ c ≠ '&' ∧ c ≠ '<' ∧
      c ≠ '\t' ∧ c ≠ '\n' ∧ c ≠ '\r') ∨
    (∃ d, f c = '&' :: d ∧ d ≠ [] ∧ ∀ K, parseEntity (d ++ K) = some (c, K))

theorem goodAttrExp_escAttrC : goodAttrExp escAttrC := by
  intro c
  by_cases h1 : c = '&'
  · subst h1
    exact Or.inr ⟨"amp;".data, rfl, by decide, parseEntity_amp⟩
  · by_cases h2 : c = '<'
    · subst h2
      exact Or.inr ⟨"lt;".data, rfl, by decide, parseEntity_lt⟩
    · by_cases h3 : c = '>'
      · subst h3
        exact Or.inr ⟨"gt;".data, rfl, by decide, parseEntity_gt⟩
      · by_cases h4 : c = '"'
        · subst h4
          exact Or.inr ⟨"quot;".data, rfl, by decide, parseEntity_quot⟩
        · by_cases h5 : c = '\t'
          · subst h5
            exact Or.inr ⟨"#9;".data, rfl, by decide, parseEntity_tab⟩
          · by_cases h6 : c = '\n'
            · subst h6
              exact Or.inr ⟨"#10;".data, rfl, by decide, parseEntity_lf⟩
            · by_cases h7 : c = '\r'
              · subst h7
                exact Or.inr ⟨"#13;".data, rfl, by decide, parseEntity_cr⟩
              · exact Or.inl ⟨by simp [escAttrC, h1, h2, h3, h4, h5, h6, h7],
                  h4, h1, h2, h5, h6, h7⟩

theorem parseAttValue_concatMap (f : Char → Str) (hf : goodAttrExp f) (v : Str) :
    ∀ rest fuel, (concatMapStr f v ++ '"' :: rest).length < fuel →
      parseAttValue fuel '"' (concatMapStr f v ++ '"' :: rest) = (v, rest, false) := by
  induction v with
  | nil =>
      intro rest fuel hfuel
      cases fuel with
      | zero => exact absurd hfuel (Nat.not_lt_zero _)
      | succ fu => simp [parseAttValue, concatMapStr]
  | cons c s ih =>
      intro rest fuel hfuel
      rcases hf c with ⟨hfc, hq, hne1, hne2, ht, hn, hr⟩ | ⟨d, hfc, hdne, hent⟩
      · have hexp : concatMapStr f (c :: s) ++ '"' :: rest =
            c :: (concatMapStr f s ++ '"' :: rest) := by
          simp [concatMapStr, hfc]
        rw [hexp] at hfuel ⊢
        cases fuel with
        | zero => exact absurd hfuel (Nat.not_lt_zero _)
        | succ fu =>
            have hrec := ih rest fu (by
              simp only [List.length_cons] at hfuel
              omega)
            simp only [parseAttValue, hq, hne1, hne2, if_false, hrec]
            simp [ht, hn, hr]
      · have hexp : concatMapStr f (c :: s) ++ '"' :: rest =
            '&' :: (d ++ (concatMapStr f s ++ '"' :: rest)) := by
          simp [concatMapStr, hfc]
        rw [hexp] at hfuel ⊢
        cases fuel with
        | zero => exact absurd hfuel (Nat.not_lt_zero _)
        | succ fu =>
            have hrec := ih rest fu (by
              have hd1 : 1 ≤ d.length := by
                cases d with
                | nil => exact absurd rfl hdne
                | cons _ _ => simp
              simp only [List.length_cons, List.length_append] at hfuel ⊢
              omega)
            simp [parseAttValue, hent, hrec]

theorem isNameStart_not_ws (c : Char) (h : isNameStart c = true) : isXmlWs c = false := by
  cases hw : isXmlWs c
  · rfl
  · exfalso
    simp only [isXmlWs, Bool.or_eq_true, decide_eq_true_eq] at hw
    rcases hw with ((rfl | rfl) | rfl) | rfl <;> exact absurd h (by decide)

theorem isNameStart_ne (c : Char) (h : isNameStart c = true) :
    c ≠ '>' ∧ c ≠ '/' ∧ c ≠ '<' ∧ c ≠ '!' ∧ c ≠ '?' := by
  refine ⟨?_, ?_, ?_, ?_, ?_⟩ <;> rintro rfl <;> exact absurd h (by decide)

/-- The closing delimiter of a start tag: `/>` when `slash`, else `>`. -/
def tagEnd (slash : Bool) (rest : Str) : Str :=
  if slash then '/' :: '>' :: rest else '>' :: rest

theorem parseAttrs_ser (attrs : List (Str × Str)) :
    ∀ acc err (slash : Bool) rest fuel,
      (∀ p ∈ attrs, validName p.1 = true) →
      nodupKeys attrs = true →
      (∀ p ∈ attrs, acc.any (fun a => a.1 = p.1) = false) →
      (serAttrs attrs ++ tagEnd slash rest).length < fuel →
      parseAttrs fuel acc err (serAttrs attrs ++ tagEnd slash rest) =
        ⟨acc.reverse ++ attrs, slash, rest, err⟩ := by
  induction attrs with
  | nil =>
      intro acc err slash rest fuel h1 h2 h3 hfuel
      cases fuel with
      | zero => exact absurd hfuel (Nat.not_lt_zero _)
      | succ fu =>
          cases slash with
          | false => simp [serAttrs, tagEnd, parseAttrs, isXmlWs]
          | true => simp [serAttrs, tagEnd, parseAttrs, isXmlWs, sQuote, isNameStart]
  | cons a attrs ih =>
      intro acc err slash rest fuel h1 h2 h3 hfuel
      obtain ⟨n, v⟩ := a
      have hvn : validName n = true := h1 (n, v) (by simp)
      obtain ⟨n0, n', rfl⟩ : ∃ n0 n', n = n0 :: n' := by
        cases n with
        | nil => simp [validName] at hvn
        | cons n0 n' => exact ⟨n0, n', rfl⟩
      have hns : isNameStart n0 = true := by
        simp only [validName, Bool.and_eq_true] at hvn
        exact hvn.1
      have hexp : serAttrs ((n0 :: n', v) :: attrs) ++ tagEnd slash rest =
          ' ' :: ((n0 :: n') ++ ('=' :: '"' ::
            (concatMapStr escAttrC v ++ '"' :: (serAttrs attrs ++ tagEnd slash rest)))) := by
        simp [serAttrs]
      rw [hexp] at hfuel ⊢
      cases fuel with
      | zero => exact absurd hfuel (Nat.not_lt_zero _)
      | succ fu =>
          rw [show parseAttrs (fu + 1) acc err (' ' :: ((n0 :: n') ++ ('=' :: '"' ::
              (concatMapStr escAttrC v ++ '"' :: (serAttrs attrs ++ tagEnd slash rest))))) =
            parseAttrs fu acc err ((n0 :: n') ++ ('=' :: '"' ::
              (concatMapStr escAttrC v ++ '"' :: (serAttrs attrs ++ tagEnd slash rest))))
            from by simp [parseAttrs, isXmlWs]]
          cases fu with
          | zero =>
              exfalso
              simp only [List.length_cons] at hfuel
              omega
          | succ fu2 =>
              have hspan : (n0 :: (n' ++ ('=' :: '"' ::
                  (concatMapStr escAttrC v ++ '"' :: (serAttrs attrs ++ tagEnd slash rest))))).span
                    isNameChar = (n0 :: n', '=' :: '"' ::
                  (concatMapStr escAttrC v ++ '"' :: (serAttrs attrs ++ tagEnd slash rest))) := by
                rw [← List.cons_append]
                exact validName_notNameChar_span _ _ hvn (Or.inr ⟨'=', _, rfl, by decide⟩)
              have hav : parseAttValue ((concatMapStr escAttrC v ++ '"' ::
                  (serAttrs attrs ++ tagEnd slash rest)).length + 1) '"'
                  (concatMapStr escAttrC v ++ '"' :: (serAttrs attrs ++ tagEnd slash rest)) =
                  (v, serAttrs attrs ++ tagEnd slash rest, false) :=
                parseAttValue_concatMap escAttrC goodAttrExp_escAttrC v _ _ (by omega)
              have hdup : acc.any (fun a => a.1 = n0 :: n') = false :=
                h3 (n0 :: n', v) (by simp)
              have hrec := ih ((n0 :: n', v) :: acc) err slash rest fu2
                (fun p hp => h1 p (by simp [hp]))
                (by
                  simp only [nodupKeys, Bool.and_eq_true] at h2
                  exact h2.2)
                (by
                  intro p hp
                  simp only [nodupKeys, Bool.and_eq_true, Bool.not_eq_true',
                    List.any_eq_false] at h2
                  have hne := h2.1 p hp
                  simp only [List.any_cons, Bool.or_eq_false_iff]
                  constructor
                  · simp only [decide_eq_false_iff_not]
                    exact fun he => hne (decide_eq_true he.symm)
                  · exact h3 p (by simp [hp]))
                (by
                  simp only [List.length_cons, List.length_append] at hfuel ⊢
                  omega)
              simp only [List.cons_append, parseAttrs]
              rw [if_neg (by simp [isNameStart_not_ws n0 hns])]
              rw [if_neg (isNameStart_ne n0 hns).1]
              rw [if_neg (isNameStart_ne n0 hns).2.1]
              rw [if_pos hns]
              simp only [List.append_eq]
              have hd1 : List.dropWhile isXmlWs ('=' :: '"' ::
                  (concatMapStr escAttrC v ++ '"' :: (serAttrs attrs ++ tagEnd slash rest))) =
                  '=' :: '"' :: (concatMapStr escAttrC v ++ '"' :: (serAttrs attrs ++ tagEnd slash rest)) := by
                rw [List.dropWhile_cons, if_neg (by decide : ¬(isXmlWs '=' = true))]
              have hd2 : List.dropWhile isXmlWs ('"' ::
                  (concatMapStr escAttrC v ++ '"' :: (serAttrs attrs ++ tagEnd slash rest))) =
                  '"' :: (concatMapStr escAttrC v ++ '"' :: (serAttrs attrs ++ tagEnd slash rest)) := by
                rw [List.dropWhile_cons, if_neg (by decide : ¬(isXmlWs '"' = true))]
              simp only [hspan, hd1, List.head?, List.tail_cons, hd2, Option.some.injEq, hav, hdup]
              simp only [sQuote]
              simp [hrec]

theorem escTextC_ne_nil (c : Char) : escTextC c ≠ [] := by
  unfold escTextC
  split
  · decide
  · split
    · decide
    · split
      · decide
      · split
        · decide
        · simp

theorem serTree_elem_head (t : Str) (a : List (Str × Str)) (f : XForest) :
    ∃ rs, serTree (.elem t a f) = '<' :: rs := by
  cases f with
  | nil => exact ⟨_, rfl⟩
  | cons x g => exact ⟨_, rfl⟩

theorem serTree_ne_nil (x : XTree) (h : wfTree x = true) : serTree x ≠ [] := by
  cases x with
  | text s =>
      cases s with
      | nil => simp [wfTree] at h
      | cons c r =>
          show escText (c :: r) ≠ []
          unfold escText concatMapStr
          intro hc
          exact escTextC_ne_nil c (List.append_eq_nil.mp hc).1
  | elem t a f =>
      obtain ⟨rs, hrs⟩ := serTree_elem_head t a f
      rw [hrs]
      simp

theorem serForest_head_not_text (f : XForest) (h : headIsText f = false) (X : Str) :
    ∃ rs, serForest f ++ '<' :: X = '<' :: rs := by
  cases f with
  | nil => exact ⟨X, rfl⟩
  | cons x g =>
      cases x with
      | text s => simp [headIsText] at h
      | elem t a f2 =>
          obtain ⟨rs, hrs⟩ := serTree_elem_head t a f2
          refine ⟨rs ++ (serForest g ++ '<' :: X), ?_⟩
          simp [serForest, hrs]

theorem serAttrs_tagEnd_head (a2 : List (Str × Str)) (slash : Bool) (K : Str) :
    ∃ c rs, serAttrs a2 ++ tagEnd slash K = c :: rs ∧ isNameChar c = false := by
  cases a2 with
  | nil =>
      cases slash with
      | false => exact ⟨'>', K, rfl, by decide⟩
      | true => exact ⟨'/', '>' :: K, rfl, by decide⟩
  | cons a r =>
      exact ⟨' ', a.1 ++ '=' :: '"' :: (concatMapStr escAttrC a.2 ++ '"' ::
        (serAttrs r ++ tagEnd slash K)), by simp [serAttrs], by decide⟩

theorem parseContent_close (fuel : Nat) (tag : Str) (anc : List Str) (acc : Str)
    (ndsRev : List XTree) (err : Bool) (rest : Str) (hname : validName tag = true) :
    parseContent (fuel + 1) tag anc acc ndsRev err ('<' :: '/' :: (tag ++ '>' :: rest)) =
      ⟨(pushText acc ndsRev).reverse, rest, err⟩ := by
  have hspan := validName_notNameChar_span tag ('>' :: rest) hname
    (Or.inr ⟨'>', rest, rfl, by decide⟩)
  have hd : List.dropWhile isXmlWs ('>' :: rest) = '>' :: rest := by
    rw [List.dropWhile_cons, if_neg (by decide : ¬(isXmlWs '>' = true))]
  simp only [parseContent, hspan, hd, List.head?, List.tail_cons, Option.some.injEq]
  simp

/-- State update performed by consuming one serialized node: text extends
the pending accumulator, an element flushes it and becomes a child. -/
def stepAcc : XTree → Str → Str
  | .text s, acc => acc ++ s
  | .elem _ _ _, _ => []

def stepNds : XTree → Str → List XTree → List XTree
  | .text _, _, ndsRev => ndsRev
  | .elem t a f, acc, ndsRev => .elem t a f :: pushText acc ndsRev

mutual
theorem parseStep_tree (x : XTree) (hwf : wfTree x = true) (tag : Str) (anc : List Str)
    (acc : Str) (ndsRev : List XTree) (err : Bool) (K : Str)
    (hK : isTextNode x = true → (K = [] ∨ ∃ rs, K = '<' :: rs)) (fuel : Nat)
    (hfuel : (serTree x ++ K).length < fuel + 1) :
    parseContent (fuel + 1) tag anc acc ndsRev err (serTree x ++ K) =
      parseContent fuel tag anc (stepAcc x acc) (stepNds x acc ndsRev) err K := by
  cases x with
  | text s =>
      have hKt := hK rfl
      obtain ⟨c, s', rfl⟩ : ∃ c s', s = c :: s' := by
        cases s with
        | nil => simp [wfTree] at hwf
        | cons c s' => exact ⟨c, s', rfl⟩
      have hser : serTree (.text (c :: s')) = concatMapStr escTextC (c :: s') := rfl
      obtain ⟨h0, tl, heq, hne⟩ : ∃ h0 tl,
          concatMapStr escTextC (c :: s') ++ K = h0 :: tl ∧ h0 ≠ '<' := by
        rcases goodTextExp_escTextC c with ⟨hfc, hne1, hne2⟩ | ⟨d, hfc, hdne, hent⟩
        · exact ⟨c, concatMapStr escTextC s' ++ K, by simp [concatMapStr, hfc], hne2⟩
        · exact ⟨'&', d ++ (concatMapStr escTextC s' ++ K),
            by simp [concatMapStr, hfc], by decide⟩
      rw [hser, heq] at hfuel ⊢
      have htt : takeText ((h0 :: tl).length + 1) (h0 :: tl) = (c :: s', K, false) := by
        rw [← heq]
        exact takeText_concatMap escTextC goodTextExp_escTextC (c :: s') K hKt _ (by omega)
      simp only [parseContent, if_neg hne, htt]
      simp [stepAcc, stepNds]
  | elem t2 a2 f2 =>
      simp only [wfTree, Bool.and_eq_true] at hwf
      obtain ⟨⟨hvn, hva⟩, hwff⟩ := hwf
      obtain ⟨c2, t2', rfl⟩ : ∃ c2 t2', t2 = c2 :: t2' := by
        cases t2 with
        | nil => simp [validName] at hvn
        | cons c2 t2' => exact ⟨c2, t2', rfl⟩
      have hns : isNameStart c2 = true := by
        simp only [validName, Bool.and_eq_true] at hvn
        exact hvn.1
      simp only [validAttrs, Bool.and_eq_true] at hva
      have hattr : ∀ (slash : Bool) (K2 : Str),
          parseAttrs ((serAttrs a2 ++ tagEnd slash K2).length + 1) [] false
            (serAttrs a2 ++ tagEnd slash K2) = ⟨a2, slash, K2, false⟩ := by
        intro slash K2
        have hps := parseAttrs_ser a2 [] false slash K2
          ((serAttrs a2 ++ tagEnd slash K2).length + 1)
          (fun p hp => List.all_eq_true.mp hva.1 p hp)
          hva.2 (fun p _ => rfl) (by omega)
        simpa using hps
      cases f2 with
      | nil =>
          have hser : serTree (.elem (c2 :: t2') a2 .nil) ++ K =
              '<' :: (c2 :: (t2' ++ (serAttrs a2 ++ tagEnd true K))) := by
            show ('<' :: ((c2 :: t2') ++ serAttrs a2 ++ ['/', '>'])) ++ K = _
            simp [tagEnd]
          rw [hser] at hfuel ⊢
          obtain ⟨cd, rs, hcdrs, hcd⟩ := serAttrs_tagEnd_head a2 true K
          have hspan : (c2 :: (t2' ++ (serAttrs a2 ++ tagEnd true K))).span isNameChar =
              (c2 :: t2', serAttrs a2 ++ tagEnd true K) := by
            rw [← List.cons_append]
            exact validName_notNameChar_span _ _ hvn (Or.inr ⟨cd, rs, hcdrs, hcd⟩)
          simp only [parseContent, List.append_eq, hspan, hattr, hns,
            (isNameStart_ne c2 hns).2.1, (isNameStart_ne c2 hns).2.2.2.1,
            (isNameStart_ne c2 hns).2.2.2.2]
          simp [stepNds, stepAcc]
      | cons y g =>
          have hser : serTree (.elem (c2 :: t2') a2 (.cons y g)) ++ K =
              '<' :: (c2 :: (t2' ++ (serAttrs a2 ++ tagEnd false
                (serForest (.cons y g) ++ '<' :: '/' :: ((c2 :: t2') ++ '>' :: K))))) := by
            show ('<' :: ((c2 :: t2') ++ serAttrs a2 ++ '>' ::
                (serForest (.cons y g) ++ '<' :: '/' :: ((c2 :: t2') ++ ['>'])))) ++ K = _
            simp [tagEnd]
          rw [hser] at hfuel ⊢
          obtain ⟨cd, rs, hcdrs, hcd⟩ := serAttrs_tagEnd_head a2 false
            (serForest (.cons y g) ++ '<' :: '/' :: ((c2 :: t2') ++ '>' :: K))
          have hspan : (c2 :: (t2' ++ (serAttrs a2 ++ tagEnd false
              (serForest (.cons y g) ++ '<' :: '/' :: ((c2 :: t2') ++ '>' :: K))))).span
                isNameChar =
              (c2 :: t2', serAttrs a2 ++ tagEnd false
                (serForest (.cons y g) ++ '<' :: '/' :: ((c2 :: t2') ++ '>' :: K))) := by
            rw [← List.cons_append]
            exact validName_notNameChar_span _ _ hvn (Or.inr ⟨cd, rs, hcdrs, hcd⟩)
          have hsub := parseForest_ser (.cons y g) hwff (c2 :: t2') (tag :: anc) [] [] false K
            hvn (Or.inl rfl) fuel (by
              simp only [List.length_cons, List.length_append, tagEnd, if_neg,
                Bool.false_eq_true, if_false] at hfuel ⊢
              omega)
          simp only [parseContent, List.append_eq, hspan, hattr, hns,
            (isNameStart_ne c2 hns).2.1, (isNameStart_ne c2 hns).2.2.2.1,
            (isNameStart_ne c2 hns).2.2.2.2, hsub]
          simp [stepNds, stepAcc, toForest_ofForest, pushText]

theorem parseForest_ser (f : XForest) (hwf : wfForest f = true) (tag : Str) (anc : List Str)
    (acc : Str) (ndsRev : List XTree) (err : Bool) (rest : Str)
    (hname : validName tag = true)
    (hacc : acc = [] ∨ headIsText f = false) (fuel : Nat)
    (hfuel : (serForest f ++ '<' :: '/' :: (tag ++ '>' :: rest)).length < fuel) :
    parseContent fuel tag anc acc ndsRev err
        (serForest f ++ '<' :: '/' :: (tag ++ '>' :: rest)) =
      ⟨(pushText acc ndsRev).reverse ++ ofForest f, rest, err⟩ := by
  cases f with
  | nil =>
      cases fuel with
      | zero => exact absurd hfuel (Nat.not_lt_zero _)
      | succ fu =>
          rw [show serForest XForest.nil ++ '<' :: '/' :: (tag ++ '>' :: rest) =
            '<' :: '/' :: (tag ++ '>' :: rest) from rfl]
          rw [parseContent_close fu tag anc acc ndsRev err rest hname]
          simp [ofForest]
  | cons x f' =>
      simp only [wfForest, Bool.and_eq_true] at hwf
      obtain ⟨⟨hwx, hnadj⟩, hwf'⟩ := hwf
      have hassoc : serForest (XForest.cons x f') ++ '<' :: '/' :: (tag ++ '>' :: rest) =
          serTree x ++ (serForest f' ++ '<' :: '/' :: (tag ++ '>' :: rest)) := by
        simp [serForest]
      rw [hassoc] at hfuel ⊢
      cases fuel with
      | zero => exact absurd hfuel (Nat.not_lt_zero _)
      | succ fu =>
          have hlx : 1 ≤ (serTree x).length :=
            List.length_pos.mpr (serTree_ne_nil x hwx)
          have hKcond : isTextNode x = true →
              ((serForest f' ++ '<' :: '/' :: (tag ++ '>' :: rest)) = [] ∨
               ∃ rs, (serForest f' ++ '<' :: '/' :: (tag ++ '>' :: rest)) = '<' :: rs) := by
            intro hxt
            right
            apply serForest_head_not_text
            simpa [hxt] using hnadj
          have hstep := parseStep_tree x hwx tag anc acc ndsRev err _ hKcond fu hfuel
          rw [hstep]
          have hrestlen : (serForest f' ++ '<' :: '/' :: (tag ++ '>' :: rest)).length < fu := by
            simp only [List.length_append] at hfuel ⊢
            omega
          cases x with
          | text s =>
              have hacc0 : acc = [] := by
                rcases hacc with h0 | h0
                · exact h0
                · simp [headIsText] at h0
              subst hacc0
              have hne : (s.isEmpty) = false := by
                cases s with
                | nil => simp [wfTree] at hwx
                | cons _ _ => rfl
              have hf'head : headIsText f' = false := by
                simpa [isTextNode] using hnadj
              simp only [stepAcc, stepNds, List.nil_append]
              rw [parseForest_ser f' hwf' tag anc s ndsRev err rest hname
                (Or.inr hf'head) fu hrestlen]
              simp [pushText, hne, ofForest]
          | elem t2 a2 f2 =>
              simp only [stepAcc, stepNds]
              rw [parseForest_ser f' hwf' tag anc []
                (XTree.elem t2 a2 f2 :: pushText acc ndsRev) err rest hname
                (Or.inl rfl) fu hrestlen]
              simp [pushText, ofForest]
end

theorem parseDoc_xserialize (tag : Str) (attrs : List (Str × Str)) (f : XForest)
    (hwf : wfTree (.elem tag attrs f) = true) :
    ∀ fuel, (xserialize (.elem tag attrs f)).length < fuel →
      parseDoc fuel false (xserialize (.elem tag attrs f)) =
        some (.elem tag attrs f, false) := by
  intro fuel hfuel
  have hx : xserialize (.elem tag attrs f) =
      '<' :: '?' :: (("xml version=".data) ++ [sQuote] ++ ("1.0".data) ++ [sQuote] ++
        (" encoding=".data) ++ [sQuote] ++ ("utf-8".data) ++ [sQuote] ++ ("?>\n".data) ++
        serTree (.elem tag attrs f)) := by
    show xmlDeclOut ++ serTree (.elem tag attrs f) = _
    simp [xmlDeclOut]
  rw [hx] at hfuel ⊢
  simp only [List.length_cons, List.length_append] at hfuel
  cases fuel with
  | zero => omega
  | succ fu =>
      rw [show parseDoc (fu + 1) false ('<' :: '?' :: (("xml version=".data) ++ [sQuote] ++
          ("1.0".data) ++ [sQuote] ++ (" encoding=".data) ++ [sQuote] ++ ("utf-8".data) ++
          [sQuote] ++ ("?>\n".data) ++ serTree (.elem tag attrs f))) =
        parseDoc fu false ('\n' :: serTree (.elem tag attrs f)) from rfl]
      cases fu with
      | zero => omega
      | succ fu2 =>
          rw [show parseDoc (fu2 + 1) false ('\n' :: serTree (.elem tag attrs f)) =
            parseDoc fu2 false (serTree (.elem tag attrs f)) from rfl]
          cases fu2 with
          | zero => omega
          | succ fu3 =>
              simp only [wfTree, Bool.and_eq_true] at hwf
              obtain ⟨⟨hvn, hva⟩, hwff⟩ := hwf
              obtain ⟨c2, t2', rfl⟩ : ∃ c2 t2', tag = c2 :: t2' := by
                cases tag with
                | nil => simp [validName] at hvn
                | cons c2 t2' => exact ⟨c2, t2', rfl⟩
              have hns : isNameStart c2 = true := by
                simp only [validName, Bool.and_eq_true] at hvn
                exact hvn.1
              simp only [validAttrs, Bool.and_eq_true] at hva
              have hattr : ∀ (slash : Bool) (K2 : Str),
                  parseAttrs ((serAttrs attrs ++ tagEnd slash K2).length + 1) [] false
                    (serAttrs attrs ++ tagEnd slash K2) = ⟨attrs, slash, K2, false⟩ := by
                intro slash K2
                have hps := parseAttrs_ser attrs [] false slash K2
                  ((serAttrs attrs ++ tagEnd slash K2).length + 1)
                  (fun p hp => List.all_eq_true.mp hva.1 p hp)
                  hva.2 (fun p _ => rfl) (by omega)
                simpa using hps
              cases f with
              | nil =>
                  have hser : serTree (.elem (c2 :: t2') attrs .nil) =
                      '<' :: (c2 :: (t2' ++ (serAttrs attrs ++ tagEnd true []))) := by
                    show '<' :: ((c2 :: t2') ++ serAttrs attrs ++ ['/', '>']) = _
                    simp [tagEnd]
                  rw [hser]
                  obtain ⟨cd, rs, hcdrs, hcd⟩ := serAttrs_tagEnd_head attrs true []
                  have hspan : (c2 :: (t2' ++ (serAttrs attrs ++ tagEnd true []))).span
                      isNameChar = (c2 :: t2', serAttrs attrs ++ tagEnd true []) := by
                    rw [← List.cons_append]
                    exact validName_notNameChar_span _ _ hvn (Or.inr ⟨cd, rs, hcdrs, hcd⟩)
                  simp only [parseDoc, List.append_eq, hspan, hattr, hns,
                    (isNameStart_ne c2 hns).2.1, (isNameStart_ne c2 hns).2.2.2.1,
                    (isNameStart_ne c2 hns).2.2.2.2]
                  simp [isXmlWs]
              | cons y g =>
                  have hser : serTree (.elem (c2 :: t2') attrs (.cons y g)) =
                      '<' :: (c2 :: (t2' ++ (serAttrs attrs ++ tagEnd false
                        (serForest (.cons y g) ++ '<' :: '/' ::
                          ((c2 :: t2') ++ '>' :: []))))) := by
                    show '<' :: ((c2 :: t2') ++ serAttrs attrs ++ '>' ::
                        (serForest (.cons y g) ++ '<' :: '/' :: ((c2 :: t2') ++ ['>']))) = _
                    simp [tagEnd]
                  rw [hser]
                  obtain ⟨cd, rs, hcdrs, hcd⟩ := serAttrs_tagEnd_head attrs false
                    (serForest (.cons y g) ++ '<' :: '/' :: ((c2 :: t2') ++ '>' :: []))
                  have hspan : (c2 :: (t2' ++ (serAttrs attrs ++ tagEnd false
                      (serForest (.cons y g) ++ '<' :: '/' ::
                        ((c2 :: t2') ++ '>' :: []))))).span isNameChar =
                      (c2 :: t2', serAttrs attrs ++ tagEnd false
                        (serForest (.cons y g) ++ '<' :: '/' ::
                          ((c2 :: t2') ++ '>' :: []))) := by
                    rw [← List.cons_append]
                    exact validName_notNameChar_span _ _ hvn (Or.inr ⟨cd, rs, hcdrs, hcd⟩)
                  have hsub := parseForest_ser (.cons y g) hwff (c2 :: t2') [] [] [] false []
                    hvn (Or.inl rfl)
                    ((serForest (.cons y g) ++ '<' :: '/' ::
                      ((c2 :: t2') ++ '>' :: [])).length + 1) (by omega)
                  simp only [parseDoc, List.append_eq, hspan, hattr, hns,
                    (isNameStart_ne c2 hns).2.1, (isNameStart_ne c2 hns).2.2.2.1,
                    (isNameStart_ne c2 hns).2.2.2.2, hsub]
                  simp [toForest_ofForest, pushText, isXmlWs]

theorem parseRecover_xserialize (tag : Str) (attrs : List (Str × Str)) (f : XForest)
    (hwf : wfTree (.elem tag attrs f) = true) :
    parseRecover (xserialize (.elem tag attrs f)) = some (.elem tag attrs f, false) :=
  parseDoc_xserialize tag attrs f hwf _ (by omega)

def lastIsText : List XTree → Bool
  | [] => false
  | [x] => isTextNode x
  | _ :: r => lastIsText r

theorem lastIsText_snoc (L : List XTree) (x : XTree) :
    lastIsText (L ++ [x]) = isTextNode x := by
  induction L with
  | nil => rfl
  | cons a L ih =>
      cases L with
      | nil => simp [lastIsText]
      | cons b L' => simpa [lastIsText] using ih

theorem lastIsText_reverse (l : List XTree) : lastIsText l.reverse = headText l := by
  cases l with
  | nil => rfl
  | cons x r =>
      rw [List.reverse_cons, lastIsText_snoc]
      cases x <;> rfl

theorem headText_append (L M : List XTree) (h : L ≠ []) :
    headText (L ++ M) = headText L := by
  cases L with
  | nil => exact absurd rfl h
  | cons x r => cases x <;> rfl

theorem headText_cons (x : XTree) (l : List XTree) : headText (x :: l) = isTextNode x := by
  cases x <;> rfl

theorem wfNodes_append_of (L M : List XTree) (hL : wfNodes L = true)
    (hM : wfNodes M = true) (hseam : (lastIsText L && headText M) = false) :
    wfNodes (L ++ M) = true := by
  induction L with
  | nil => simpa using hM
  | cons a L ih =>
      simp only [wfNodes, Bool.and_eq_true] at hL
      obtain ⟨⟨ha, hadj⟩, hL'⟩ := hL
      have hseam' : (lastIsText L && headText M) = false := by
        cases L with
        | nil => simp [lastIsText]
        | cons b L' => simpa [lastIsText] using hseam
      have hrec := ih hL' hseam'
      simp only [List.cons_append, wfNodes, Bool.and_eq_true]
      refine ⟨⟨ha, ?_⟩, hrec⟩
      simp only [List.append_eq]
      cases L with
      | nil =>
          simp only [List.nil_append]
          have hla : lastIsText [a] = isTextNode a := rfl
          rw [hla] at hseam
          rcases Bool.and_eq_false_iff.mp hseam with h0 | h0
          · simp [h0]
          · simp [h0]
      | cons b L' =>
          rw [show (b :: L') ++ M = b :: (L' ++ M) from rfl, headText_cons]
          rw [headText_cons] at hadj
          exact hadj

theorem wfNodes_singleton (x : XTree) (h : wfTree x = true) : wfNodes [x] = true := by
  simp [wfNodes, headText, h]

theorem wf_flush (acc : Str) (ndsRev : List XTree)
    (h1 : wfNodes ndsRev.reverse = true) (h2 : headText ndsRev = false) :
    wfNodes ((pushText acc ndsRev).reverse) = true := by
  cases acc with
  | nil => simpa [pushText] using h1
  | cons c acc' =>
      have hp : pushText (c :: acc') ndsRev = XTree.text (c :: acc') :: ndsRev := by
        simp [pushText]
      rw [hp, List.reverse_cons]
      apply wfNodes_append_of _ _ h1
      · exact wfNodes_singleton _ (by simp [wfTree])
      · rw [lastIsText_reverse, h2]
        rfl

theorem wf_push_elem (acc : Str) (ndsRev : List XTree) (t : Str) (a : List (Str × Str))
    (f : XForest) (h1 : wfNodes ndsRev.reverse = true) (h2 : headText ndsRev = false)
    (hwf : wfTree (.elem t a f) = true) :
    wfNodes ((XTree.elem t a f :: pushText acc ndsRev).reverse) = true ∧
    headText (XTree.elem t a f :: pushText acc ndsRev) = false := by
  constructor
  · rw [List.reverse_cons]
    apply wfNodes_append_of _ _ (wf_flush acc ndsRev h1 h2)
    · exact wfNodes_singleton _ hwf
    · simp [headText_cons, isTextNode]
  · rfl

theorem span_validName (c : Char) (r : Str) (h : isNameStart c = true) :
    validName ((c :: r).span isNameChar).1 = true := by
  rw [List.span_eq_take_drop]
  have hc : isNameChar c = true := by simp [isNameChar, h]
  simp only [List.takeWhile_cons, hc, if_true]
  simp only [validName, Bool.and_eq_true]
  refine ⟨h, ?_⟩
  rw [List.all_eq_true]
  intro x hx
  exact List.mem_takeWhile_imp hx

theorem nodupKeys_snoc (L : List (Str × Str)) (n v : Str)
    (h1 : nodupKeys L = true) (h2 : ∀ b ∈ L, ¬(b.1 = n)) :
    nodupKeys (L ++ [(n, v)]) = true := by
  induction L with
  | nil => simp [nodupKeys]
  | cons a L ih =>
      simp only [nodupKeys, Bool.and_eq_true] at h1
      have hrec := ih h1.2 (fun b hb => h2 b (by simp [hb]))
      simp only [List.cons_append, nodupKeys, Bool.and_eq_true]
      refine ⟨?_, hrec⟩
      simp only [List.append_eq, List.any_append, Bool.not_eq_true', Bool.or_eq_false_iff]
      constructor
      · simp only [Bool.not_eq_true'] at h1
        exact h1.1
      · simp only [List.any_cons, List.any_nil, Bool.or_false]
        simp only [decide_eq_false_iff_not]
        exact fun he => h2 a (by simp) he.symm

theorem parseAttrs_wf (fuel : Nat) : ∀ (acc : List (Str × Str)) (err : Bool) (l : Str),
    (∀ p ∈ acc, validName p.1 = true) → nodupKeys acc.reverse = true →
    (∀ p ∈ (parseAttrs fuel acc err l).attrs, validName p.1 = true) ∧
      nodupKeys (parseAttrs fuel acc err l).attrs = true := by
  induction fuel with
  | zero =>
      intro acc err l h1 h2
      exact ⟨fun p hp => h1 p (List.mem_reverse.mp hp), h2⟩
  | succ fuel ih =>
      intro acc err l h1 h2
      have hbase : (∀ p ∈ acc.reverse, validName p.1 = true) ∧
          nodupKeys acc.reverse = true :=
        ⟨fun p hp => h1 p (List.mem_reverse.mp hp), h2⟩
      cases l with
      | nil => exact hbase
      | cons c r =>
          simp only [parseAttrs]
          by_cases hws : isXmlWs c = true
          · rw [if_pos hws]
            exact ih acc err r h1 h2
          · rw [if_neg hws]
            by_cases hgt : c = '>'
            · rw [if_pos hgt]
              exact hbase
            · rw [if_neg hgt]
              by_cases hsl : c = '/'
              · rw [if_pos hsl]
                by_cases hh : r.head? = some '>'
                · rw [if_pos hh]
                  exact hbase
                · rw [if_neg hh]
                  exact ih acc true r h1 h2
              · rw [if_neg hsl]
                by_cases hns : isNameStart c = true
                · rw [if_pos hns]
                  by_cases he : (((c :: r).span isNameChar).2.dropWhile isXmlWs).head? =
                      some '='
                  · rw [if_pos he]
                    cases hq : ((((c :: r).span isNameChar).2.dropWhile
                        isXmlWs).tail.dropWhile isXmlWs).head? with
                    | none => exact hbase
                    | some q =>
                        dsimp only
                        by_cases hqv : (q = '"' || q = sQuote) = true
                        · rw [if_pos hqv]
                          by_cases hdup : (acc.any
                              (fun a => a.1 = ((c :: r).span isNameChar).1)) = true
                          · rw [if_pos hdup]
                            exact ih acc _ _ h1 h2
                          · rw [if_neg hdup]
                            apply ih
                            · intro p hp
                              rcases List.mem_cons.mp hp with rfl | hp
                              · exact span_validName c r hns
                              · exact h1 p hp
                            · rw [List.reverse_cons]
                              apply nodupKeys_snoc _ _ _ h2
                              intro b hb
                              rw [List.mem_reverse] at hb
                              intro hbe
                              exact hdup (List.any_eq_true.mpr ⟨b, hb, by simp [hbe]⟩)
                        · rw [if_neg hqv]
                          exact ih acc true _ h1 h2
                  · rw [if_neg he]
                    exact ih acc true _ h1 h2
                · rw [if_neg hns]
                  exact ih acc true r h1 h2

theorem validAttrs_parseAttrs (fuel : Nat) (l : Str) :
    validAttrs (parseAttrs fuel [] false l).attrs = true := by
  have h := parseAttrs_wf fuel [] false l (fun p hp => absurd hp (List.not_mem_nil p)) rfl
  simp only [validAttrs, Bool.and_eq_true]
  exact ⟨List.all_eq_true.mpr h.1, h.2⟩

theorem parseContent_wf (fuel : Nat) : ∀ (tag : Str) (anc : List Str) (acc : Str)
    (ndsRev : List XTree) (err : Bool) (input : Str),
    wfNodes ndsRev.reverse = true → headText ndsRev = false →
    wfNodes (parseContent fuel tag anc acc ndsRev err input).nodes = true := by
  induction fuel with
  | zero =>
      intro tag anc acc ndsRev err input h1 h2
      exact wf_flush acc ndsRev h1 h2
  | succ fuel ih =>
      intro tag anc acc ndsRev err input h1 h2
      cases input with
      | nil => exact wf_flush acc ndsRev h1 h2
      | cons c r =>
          simp only [parseContent]
          by_cases hc : c = '<'
          · rw [if_pos hc]
            cases r with
            | nil => exact ih tag anc (acc ++ ['<']) ndsRev true [] h1 h2
            | cons c2 r2 =>
                dsimp only
                by_cases h2c : c2 = '/'
                · rw [if_pos h2c]
                  by_cases hpt : (r2.span isNameChar).1 = tag
                  · rw [if_pos hpt]
                    exact wf_flush acc ndsRev h1 h2
                  · rw [if_neg hpt]
                    by_cases hanc : anc.contains (r2.span isNameChar).1 = true
                    · rw [if_pos hanc]
                      exact wf_flush acc ndsRev h1 h2
                    · rw [if_neg hanc]
                      exact ih tag anc acc ndsRev true _ h1 h2
                · rw [if_neg h2c]
                  by_cases h2b : c2 = '!'
                  · rw [if_pos h2b]
                    by_cases hcm : r2.take 2 = ['-', '-']
                    · rw [if_pos hcm]
                      exact ih tag anc acc ndsRev err _ h1 h2
                    · rw [if_neg hcm]
                      exact ih tag anc acc ndsRev true _ h1 h2
                  · rw [if_neg h2b]
                    by_cases h2q : c2 = '?'
                    · rw [if_pos h2q]
                      exact ih tag anc acc ndsRev err _ h1 h2
                    · rw [if_neg h2q]
                      by_cases hns : isNameStart c2 = true
                      · rw [if_pos hns]
                        have hwfe0 : validName ((c2 :: r2).span isNameChar).1 = true :=
                          span_validName c2 r2 hns
                        by_cases hsc : (parseAttrs ((((c2 :: r2).span isNameChar).2).length + 1)
                            [] false (((c2 :: r2).span isNameChar).2)).selfClose = true
                        · rw [if_pos hsc]
                          have hwfe : wfTree (XTree.elem ((c2 :: r2).span isNameChar).1
                              (parseAttrs ((((c2 :: r2).span isNameChar).2).length + 1)
                                [] false (((c2 :: r2).span isNameChar).2)).attrs .nil) = true := by
                            simp only [wfTree, Bool.and_eq_true]
                            exact ⟨⟨hwfe0, validAttrs_parseAttrs _ _⟩, rfl⟩
                          obtain ⟨hw1, hw2⟩ := wf_push_elem acc ndsRev _ _ _ h1 h2 hwfe
                          exact ih tag anc [] _ _ _ hw1 hw2
                        · rw [if_neg hsc]
                          have hsub := ih ((c2 :: r2).span isNameChar).1 (tag :: anc) [] []
                            false (parseAttrs ((((c2 :: r2).span isNameChar).2).length + 1)
                              [] false (((c2 :: r2).span isNameChar).2)).rest rfl rfl
                          have hwfe : wfTree (XTree.elem ((c2 :: r2).span isNameChar).1
                              (parseAttrs ((((c2 :: r2).span isNameChar).2).length + 1)
                                [] false (((c2 :: r2).span isNameChar).2)).attrs
                              (toForest (parseContent fuel ((c2 :: r2).span isNameChar).1
                                (tag :: anc) [] [] false
                                (parseAttrs ((((c2 :: r2).span isNameChar).2).length + 1)
                                  [] false (((c2 :: r2).span isNameChar).2)).rest).nodes)) =
                              true := by
                            simp only [wfTree, Bool.and_eq_true, wfForest_toForest]
                            exact ⟨⟨hwfe0, validAttrs_parseAttrs _ _⟩, hsub⟩
                          obtain ⟨hw1, hw2⟩ := wf_push_elem acc ndsRev _ _ _ h1 h2 hwfe
                          exact ih tag anc [] _ _ _ hw1 hw2
                      · rw [if_neg hns]
                        exact ih tag anc (acc ++ ['<']) ndsRev true _ h1 h2
          · rw [if_neg hc]
            exact ih tag anc _ ndsRev _ _ h1 h2

theorem parseDoc_wf (fuel : Nat) : ∀ (err : Bool) (input : Str) (t : XTree) (e : Bool),
    parseDoc fuel err input = some (t, e) → wfTree t = true := by
  induction fuel with
  | zero =>
      intro err input t e h
      simp [parseDoc] at h
  | succ fuel ih =>
      intro err input t e h
      cases input with
      | nil => simp [parseDoc] at h
      | cons c r =>
          simp only [parseDoc] at h
          by_cases hws : isXmlWs c = true
          · rw [if_pos hws] at h
            exact ih _ _ _ _ h
          · rw [if_neg hws] at h
            by_cases hc : c = '<'
            · rw [if_pos hc] at h
              cases r with
              | nil =>
                  dsimp only at h
                  exact ih _ _ _ _ h
              | cons c2 r2 =>
                  dsimp only at h
                  by_cases hq : c2 = '?'
                  · rw [if_pos hq] at h
                    exact ih _ _ _ _ h
                  · rw [if_neg hq] at h
                    by_cases hb : c2 = '!'
                    · rw [if_pos hb] at h
                      by_cases hcm : r2.take 2 = ['-', '-']
                      · rw [if_pos hcm] at h
                        exact ih _ _ _ _ h
                      · rw [if_neg hcm] at h
                        exact ih _ _ _ _ h
                    · rw [if_neg hb] at h
                      by_cases hsl : c2 = '/'
                      · rw [if_pos hsl] at h
                        exact ih _ _ _ _ h
                      · rw [if_neg hsl] at h
                        by_cases hns : isNameStart c2 = true
                        · rw [if_pos hns] at h
                          by_cases hsc : (parseAttrs ((((c2 :: r2).span isNameChar).2).length
                              + 1) [] false (((c2 :: r2).span isNameChar).2)).selfClose = true
                          · rw [if_pos hsc] at h
                            simp only [Option.some.injEq, Prod.mk.injEq] at h
                            rw [← h.1]
                            simp only [wfTree, Bool.and_eq_true]
                            exact ⟨⟨span_validName c2 r2 hns, validAttrs_parseAttrs _ _⟩, rfl⟩
                          · rw [if_neg hsc] at h
                            simp only [Option.some.injEq, Prod.mk.injEq] at h
                            rw [← h.1]
                            simp only [wfTree, Bool.and_eq_true, wfForest_toForest]
                            exact ⟨⟨span_validName c2 r2 hns, validAttrs_parseAttrs _ _⟩,
                              parseContent_wf _ _ _ _ _ _ _ rfl rfl⟩
                        · rw [if_neg hns] at h
                          exact ih _ _ _ _ h
            · rw [if_neg hc] at h
              exact ih _ _ _ _ h

/-! ## C1: assemble-then-repair round trip -/

/-- The input remaining after the parser has consumed `<?xml ...?>\n<document>`
of `wrap_as_xml ss`: a newline, the joined sentence blocks and the closing
`\n</document>\n`. -/
def docBody (ss : List Str) : Str :=
  '\n' :: (joinSep ['\n'] (blocksFrom 1 ss) ++ ("\n</document>\n".data))

/-- The content parse of the root element of `wrap_as_xml ss`. -/
def docSub (ss : List Str) : CRes :=
  parseContent ((docBody ss).length + 1) ("document".data) [] [] [] false (docBody ss)

theorem parseDoc_wrap (ss : List Str) (fuel : Nat)
    (hfuel : (wrap_as_xml ss).length < fuel) :
    parseDoc fuel false (wrap_as_xml ss) =
      some (.elem ("document".data) [] (toForest (docSub ss).nodes),
        (docSub ss).err || !((docSub ss).rest.dropWhile isXmlWs).isEmpty) := by
  have hx : wrap_as_xml ss = '<' :: '?' ::
      (("xml version=\"1.0\" encoding=\"UTF-8\"?>".data) ++
        ('\n' :: '<' :: (("document".data) ++ '>' :: docBody ss))) := rfl
  rw [hx] at hfuel ⊢
  simp only [List.length_cons, List.length_append] at hfuel
  cases fuel with
  | zero => omega
  | succ fu =>
      rw [show parseDoc (fu + 1) false ('<' :: '?' ::
          (("xml version=\"1.0\" encoding=\"UTF-8\"?>".data) ++
            ('\n' :: '<' :: (("document".data) ++ '>' :: docBody ss)))) =
        parseDoc fu false ('\n' :: '<' :: (("document".data) ++ '>' :: docBody ss))
        from rfl]
      cases fu with
      | zero => omega
      | succ fu2 =>
          rw [show parseDoc (fu2 + 1) false
              ('\n' :: '<' :: (("document".data) ++ '>' :: docBody ss)) =
            parseDoc fu2 false ('<' :: (("document".data) ++ '>' :: docBody ss)) from rfl]
          cases fu2 with
          | zero => omega
          | succ fu3 =>
              exact (show parseDoc (fu3 + 1) false
                  ('<' :: (("document".data) ++ '>' :: docBody ss)) =
                some (.elem ("document".data) [] (toForest (docSub ss).nodes),
                  (docSub ss).err ||
                    !((docSub ss).rest.dropWhile isXmlWs).isEmpty) from rfl)

/-- C1: for every non-empty sentence sequence, `wrap_as_xml` followed by
`validate_and_repair_xml` succeeds, the recovery parser accepts the output
without recovering from any error, and `validate_and_repair_xml` applied to
the output returns it unchanged (fixed point). -/
theorem C1_assemble_repair_roundtrip (ss : List Str) (hne : ss ≠ []) :
    ∃ out, validate_and_repair_xml (wrap_as_xml ss) = .ok out ∧
      (∃ t, parseRecover out = some (t, false)) ∧
      validate_and_repair_xml out = .ok out := by
  clear hne
  have hdoc : parseRecover (wrap_as_xml ss) =
      some (.elem ("document".data) [] (toForest (docSub ss).nodes),
        (docSub ss).err || !((docSub ss).rest.dropWhile isXmlWs).isEmpty) :=
    parseDoc_wrap ss _ (by omega)
  have hdoc2 : parseDoc ((wrap_as_xml ss).length + 1) false (wrap_as_xml ss) =
      some (.elem ("document".data) [] (toForest (docSub ss).nodes),
        (docSub ss).err || !((docSub ss).rest.dropWhile isXmlWs).isEmpty) := hdoc
  have hwf : wfTree (.elem ("document".data) [] (toForest (docSub ss).nodes)) = true :=
    parseDoc_wf _ _ _ _ _ hdoc2
  have hp := parseRecover_xserialize ("document".data) [] (toForest (docSub ss).nodes) hwf
  refine ⟨xserialize (.elem ("document".data) [] (toForest (docSub ss).nodes)), ?_, ?_, ?_⟩
  · simp [validate_and_repair_xml, hdoc]
  · exact ⟨_, hp⟩
  · simp [validate_and_repair_xml, hp]

theorem C1_assemble_repair_roundtrip_witness :
    (["Hello.".data] : List Str) ≠ [] ∧
    (∃ out, validate_and_repair_xml (wrap_as_xml [("Hello.".data)]) = .ok out ∧
      (∃ t, parseRecover out = some (t, false)) ∧
      validate_and_repair_xml out = .ok out) :=
  ⟨by decide, C1_assemble_repair_roundtrip [("Hello.".data)] (by decide)⟩

/-! ## C9: empty segmentation still yields a valid document -/

theorem reSplitPW_head (fuel : Nat) (a : Char) (r : Str) :
    ∃ s1 tail, reSplitPW fuel (a :: r) = (a :: s1) :: tail := by
  cases fuel with
  | zero => exact ⟨r, [], rfl⟩
  | succ fu =>
      cases r with
      | nil =>
          cases hr : reSplitPW fu [] with
          | nil => exact ⟨[], [], by simp [reSplitPW, hr]⟩
          | cons s rest => exact ⟨s, rest, by simp [reSplitPW, hr]⟩
      | cons b rr =>
          by_cases hc : (isTermPunct a && isPySpace b) = true
          · exact ⟨[], reSplitPW fu ((b :: rr).dropWhile isPySpace),
              by simp [reSplitPW, hc]⟩
          · cases hr : reSplitPW fu (b :: rr) with
            | nil => exact ⟨[], [], by simp [reSplitPW, hc, hr]⟩
            | cons s rest => exact ⟨s, rest, by simp [reSplitPW, hc, hr]⟩

theorem sentence_split_nil_all_ws (x : Str) (h : sentence_split x = []) :
    x.all isPySpace = true := by
  by_contra hax
  have hps : pyStrip x ≠ [] := fun hh => hax ((pyStrip_eq_nil_iff x).mp hh)
  obtain ⟨p0, p', hp, hp0⟩ := pyStrip_head_not_space x hps
  obtain ⟨t1, ht1⟩ := collapseWs_cons p0 p'
  have ht1b : collapseWs (p0 :: p') = p0 :: t1 := by simpa [hp0] using ht1
  obtain ⟨s1, tail, hsplit⟩ := reSplitPW_head ((p0 :: t1).length + 1) p0 t1
  have hxx : sentence_split x =
      ((p0 :: s1) :: tail).filter (fun s => !(pyStrip s).isEmpty) := by
    show (reSplitPW ((collapseWs (pyStrip x)).length + 1)
        (collapseWs (pyStrip x))).filter (fun s => !(pyStrip s).isEmpty) = _
    rw [hp, ht1b, hsplit]
  rw [hxx] at h
  have hpredne : pyStrip (p0 :: s1) ≠ [] := by
    rw [Ne, pyStrip_eq_nil_iff]
    intro hall
    rw [List.all_cons] at hall
    simp [hp0] at hall
  have hpred : (!(pyStrip (p0 :: s1)).isEmpty) = true := by
    simpa [List.isEmpty_iff] using hpredne
  simp [List.filter_cons, hpred] at h

theorem all_ws_clean (x : Str) (h : x.all isPySpace = true) :
    (clean_illegal_xml_chars x).all isPySpace = true := by
  rw [List.all_eq_true] at h ⊢
  intro c hc
  exact h c (List.mem_of_mem_filter hc)

theorem sentence_split_all_ws (y : Str) (h : y.all isPySpace = true) :
    sentence_split y = [] := by
  have h0 : pyStrip y = [] := (pyStrip_eq_nil_iff y).mpr h
  show (reSplitPW ((collapseWs (pyStrip y)).length + 1)
      (collapseWs (pyStrip y))).filter (fun s => !(pyStrip s).isEmpty) = []
  rw [h0]
  rfl

/-- Number of element children named `s` in a forest. -/
def countS : XForest → Nat
  | .nil => 0
  | .cons (.elem t _ _) f => (if t = ("s".data) then 1 else 0) + countS f
  | .cons (.text _) f => countS f

/-- C9: whenever the sentence segmentation of the input is empty,
`process_single_text` still succeeds with sentence count 0, and its output
parses without error to a `document` root element with no `s` element
children. -/
theorem C9_empty_segmentation (x : Str) (h : sentence_split x = []) :
    ∃ out t, process_single_text x = .ok (out, 0) ∧
      parseRecover out = some (t, false) ∧
      ∃ f, t = .elem ("document".data) [] f ∧ countS f = 0 := by
  have hall : x.all isPySpace = true := sentence_split_nil_all_ws x h
  have hsc : sentence_split (clean_illegal_xml_chars x) = [] :=
    sentence_split_all_ws _ (all_ws_clean x hall)
  refine ⟨xserialize (.elem ("document".data) []
      (.cons (.text ("\n\n".data)) .nil)),
    .elem ("document".data) [] (.cons (.text ("\n\n".data)) .nil), ?_, ?_, ?_⟩
  · have hrun : process_single_text x =
        match validate_and_repair_xml (wrap_as_xml
          ((sentence_split (clean_illegal_xml_chars x)).map escape_xml_entities)) with
        | .error e => .error e
        | .ok v => .ok (v, (sentence_split (clean_illegal_xml_chars x)).length) := rfl
    rw [hrun, hsc]
    rfl
  · rfl
  · exact ⟨_, rfl, rfl⟩

theorem C9_empty_segmentation_witness :
    sentence_split ([] : Str) = [] ∧
    (∃ out t, process_single_text [] = .ok (out, 0) ∧
      parseRecover out = some (t, false) ∧
      ∃ f, t = .elem ("document".data) [] f ∧ countS f = 0) :=
  ⟨rfl, C9_empty_segmentation [] rfl⟩

/-! ## C10: sentence count vs `<s>` elements in the output -/

/-- The parsed form of the `wrap_as_xml` block for sentence number `i` with
original (pre-escape) text `sent`: an `s` element with the number as its `n`
attribute and the newline-framed sentence as its single text child. -/
def sElemNode (i : Nat) (sent : Str) : XTree :=
  .elem ("s".data) [(("n".data), natDigits i)]
    (.cons (.text ('\n' :: (sent ++ ['\n']))) .nil)

/-- The children of the `document` root that follow its first newline: one
`s` element and one separating-newline text node per sentence, numbered
from `i`. -/
def docTail (i : Nat) : List Str → List XTree
  | [] => []
  | s :: r => sElemNode i s :: XTree.text ['\n'] :: docTail (i + 1) r

/-- First value bound to attribute name `nm`, if any. -/
def lookupAttr (nm : Str) : List (Str × Str) → Option Str
  | [] => none
  | (k, v) :: r => if k = nm then some v else lookupAttr nm r

/-- The `n` attribute values of the `s` element children, in document
order. -/
def sAttrVals : XForest → List (Option Str)
  | .nil => []
  | .cons (.elem t a _) f =>
      if t = ("s".data) then lookupAttr ("n".data) a :: sAttrVals f
      else sAttrVals f
  | .cons (.text _) f => sAttrVals f

/-- `[some (str i), some (str (i+1)), ...]`, `n` entries. -/
def natSeq (i : Nat) : Nat → List (Option Str)
  | 0 => []
  | n + 1 => some (natDigits i) :: natSeq (i + 1) n

theorem digitChar_isDigit (n : Nat) : (digitChar n).isDigit = true := by
  unfold digitChar
  repeat' split
  all_goals decide

theorem natDigitsAux_digits (fuel : Nat) : ∀ (n : Nat),
    ∀ c ∈ natDigitsAux fuel n, c.isDigit = true := by
  induction fuel with
  | zero => intro n c hc; simp [natDigitsAux] at hc
  | succ fu ih =>
      intro n c hc
      unfold natDigitsAux at hc
      by_cases h : n < 10
      · rw [if_pos h] at hc
        simp only [List.mem_singleton] at hc
        subst hc
        exact digitChar_isDigit n
      · rw [if_neg h] at hc
        rw [List.mem_append] at hc
        rcases hc with hc | hc
        · exact ih _ c hc
        · simp only [List.mem_singleton] at hc
          subst hc
          exact digitChar_isDigit _

theorem isDigit_escAttrC (c : Char) (h : c.isDigit = true) : escAttrC c = [c] := by
  have h1 : c ≠ '&' := by rintro rfl; exact absurd h (by decide)
  have h2 : c ≠ '<' := by rintro rfl; exact absurd h (by decide)
  have h3 : c ≠ '>' := by rintro rfl; exact absurd h (by decide)
  have h4 : c ≠ '"' := by rintro rfl; exact absurd h (by decide)
  have h5 : c ≠ '\t' := by rintro rfl; exact absurd h (by decide)
  have h6 : c ≠ '\n' := by rintro rfl; exact absurd h (by decide)
  have h7 : c ≠ '\r' := by rintro rfl; exact absurd h (by decide)
  simp [escAttrC, h1, h2, h3, h4, h5, h6, h7]

theorem concatMapStr_id_of (f : Char → Str) (l : Str)
    (h : ∀ c ∈ l, f c = [c]) : concatMapStr f l = l := by
  induction l with
  | nil => rfl
  | cons a r ih =>
      simp [concatMapStr, h a (by simp), ih (fun c hc => h c (by simp [hc]))]

theorem escAttrC_natDigits (i : Nat) :
    concatMapStr escAttrC (natDigits i) = natDigits i :=
  concatMapStr_id_of _ _
    (fun c hc => isDigit_escAttrC c (natDigitsAux_digits _ _ c hc))

theorem concatMapStr_append (f : Char → Str) (x y : Str) :
    concatMapStr f (x ++ y) = concatMapStr f x ++ concatMapStr f y := by
  induction x with
  | nil => rfl
  | cons a r ih => simp [concatMapStr, ih]

theorem parse_s_content (s SUF : Str) (anc : List Str) (fuel : Nat)
    (hfuel : ('\n' :: (escape_xml_entities s ++
        ('\n' :: '<' :: '/' :: ('s' :: '>' :: SUF)))).length < fuel) :
    parseContent fuel ("s".data) anc [] [] false
        ('\n' :: (escape_xml_entities s ++
          ('\n' :: '<' :: '/' :: ('s' :: '>' :: SUF)))) =
      ⟨[XTree.text ('\n' :: (s ++ ['\n']))], SUF, false⟩ := by
  have hn : pyEscChar '\n' = ['\n'] := by decide
  have hexp : '\n' :: (escape_xml_entities s ++
      ('\n' :: '<' :: '/' :: ('s' :: '>' :: SUF))) =
      concatMapStr pyEscChar ('\n' :: (s ++ ['\n'])) ++
        ('<' :: '/' :: ('s' :: '>' :: SUF)) := by
    rw [escape_eq_concatMap]
    simp [concatMapStr_append, concatMapStr, hn]
  cases fuel with
  | zero => exact absurd hfuel (Nat.not_lt_zero _)
  | succ fu =>
      have htt : takeText (('\n' :: (escape_xml_entities s ++
          ('\n' :: '<' :: '/' :: ('s' :: '>' :: SUF)))).length + 1)
          ('\n' :: (escape_xml_entities s ++
            ('\n' :: '<' :: '/' :: ('s' :: '>' :: SUF)))) =
          ('\n' :: (s ++ ['\n']), '<' :: '/' :: ('s' :: '>' :: SUF), false) := by
        rw [hexp]
        exact takeText_concatMap pyEscChar goodTextExp_pyEscChar _ _
          (Or.inr ⟨_, rfl⟩) _ (by omega)
      simp only [parseContent]
      rw [if_neg (by decide : ¬(('\n' : Char) = '<'))]
      simp only [htt, List.nil_append, Bool.or_false]
      cases fu with
      | zero =>
          exfalso
          simp only [List.length_cons, List.length_append] at hfuel
          omega
      | succ fu2 =>
          have hcl := parseContent_close fu2 ("s".data) anc ('\n' :: (s ++ ['\n']))
            [] false SUF (by decide)
          have hshape : ('<' :: '/' :: ('s' :: '>' :: SUF) : Str) =
              '<' :: '/' :: (("s".data) ++ '>' :: SUF) := rfl
          rw [hshape, hcl]
          simp [pushText]

/-- What remains of a serialized sentence block after its `<s ...>` start
tag: newline, escaped sentence, newline, the `</s>` end tag, then `Q`. -/
def sInner (s Q : Str) : Str :=
  '\n' :: (escape_xml_entities s ++ ('\n' :: '<' :: '/' :: ('s' :: '>' :: ('\n' :: Q))))

theorem parse_block (i : Nat) (s Q : Str) (anc : List Str) (ndsRev : List XTree)
    (err : Bool) (fu : Nat) (hQ : ∃ rs, Q = '<' :: rs)
    (hfuel : (wrap_block i (escape_xml_entities s) ++ '\n' :: Q).length < fu + 1 + 1) :
    parseContent (fu + 1 + 1) ("document".data) anc ['\n'] ndsRev err
        (wrap_block i (escape_xml_entities s) ++ '\n' :: Q) =
      parseContent fu ("document".data) anc ['\n']
        (sElemNode i s :: pushText ['\n'] ndsRev) err Q := by
  obtain ⟨qs, rfl⟩ := hQ
  have htg : tagEnd false (sInner s ('<' :: qs)) = '>' :: sInner s ('<' :: qs) := rfl
  have hlit1 : ("<s n=\"".data : Str) = '<' :: 's' :: ' ' :: 'n' :: '=' :: '"' :: [] := rfl
  have hlit2 : ("\">\n".data : Str) = '"' :: '>' :: '\n' :: [] := rfl
  have hlit3 : ("\n</s>".data : Str) = '\n' :: '<' :: '/' :: 's' :: '>' :: [] := rfl
  have hx : wrap_block i (escape_xml_entities s) ++ '\n' :: ('<' :: qs) =
      '<' :: ('s' :: (serAttrs [((['n'] : Str), natDigits i)] ++
        '>' :: sInner s ('<' :: qs))) := by
    simp [wrap_block, serAttrs, sInner, escAttrC_natDigits, hlit1, hlit2, hlit3]
  rw [hx] at hfuel ⊢
  obtain ⟨cd, rs2, hcdrs, hcd⟩ :=
    serAttrs_tagEnd_head [((['n'] : Str), natDigits i)] false (sInner s ('<' :: qs))
  rw [htg] at hcdrs
  have hspan : ('s' :: (serAttrs [((['n'] : Str), natDigits i)] ++
      '>' :: sInner s ('<' :: qs))).span isNameChar =
      ((['s'] : Str), serAttrs [((['n'] : Str), natDigits i)] ++
        '>' :: sInner s ('<' :: qs)) := by
    have h0 := validName_notNameChar_span (['s'] : Str)
      (serAttrs [((['n'] : Str), natDigits i)] ++ '>' :: sInner s ('<' :: qs))
      (by decide) (Or.inr ⟨cd, rs2, hcdrs, hcd⟩)
    exact h0
  have hattr : parseAttrs ((serAttrs [((['n'] : Str), natDigits i)] ++
      '>' :: sInner s ('<' :: qs)).length + 1) [] false
      (serAttrs [((['n'] : Str), natDigits i)] ++ '>' :: sInner s ('<' :: qs)) =
      ⟨[((['n'] : Str), natDigits i)], false, sInner s ('<' :: qs), false⟩ := by
    have hattr0 := parseAttrs_ser [((['n'] : Str), natDigits i)] [] false false
      (sInner s ('<' :: qs))
      ((serAttrs [((['n'] : Str), natDigits i)] ++
        tagEnd false (sInner s ('<' :: qs))).length + 1)
      (by
        intro p hp
        simp only [List.mem_singleton] at hp
        subst hp
        show validName (['n'] : Str) = true
        decide)
      rfl
      (fun p _ => rfl)
      (by omega)
    rw [htg] at hattr0
    simpa using hattr0
  have hsub : parseContent (fu + 1) (['s'] : Str)
      ((['d', 'o', 'c', 'u', 'm', 'e', 'n', 't'] : Str) :: anc) [] [] false
      (sInner s ('<' :: qs)) =
      ⟨[XTree.text ('\n' :: (s ++ ['\n']))], '\n' :: ('<' :: qs), false⟩ := by
    have hb : (sInner s ('<' :: qs)).length < fu + 1 := by
      simp only [sInner, List.length_cons, List.length_append] at hfuel ⊢
      omega
    exact parse_s_content s ('\n' :: ('<' :: qs))
      ((['d', 'o', 'c', 'u', 'm', 'e', 'n', 't'] : Str) :: anc) (fu + 1)
      (by simpa only [sInner] using hb)
  have htt2 : takeText (('\n' :: ('<' :: qs)).length + 1) ('\n' :: ('<' :: qs)) =
      (['\n'], '<' :: qs, false) := by
    have h0 := takeText_concatMap pyEscChar goodTextExp_pyEscChar ['\n'] ('<' :: qs)
      (Or.inr ⟨qs, rfl⟩) (('\n' :: ('<' :: qs)).length + 1)
      (by
        rw [show concatMapStr pyEscChar ['\n'] ++ ('<' :: qs) =
          '\n' :: ('<' :: qs) from rfl]
        omega)
    exact h0
  simp only [parseContent, List.append_eq, hspan, hattr, hsub, htt2,
    List.nil_append, Bool.or_false, sElemNode, toForest,
    eq_self_iff_true, if_true, if_false, Bool.false_eq_true,
    (by decide : ¬(('s' : Char) = '/')), (by decide : ¬(('s' : Char) = '!')),
    (by decide : ¬(('s' : Char) = '?')), (by decide : isNameStart 's' = true),
    (by decide : ¬(('\n' : Char) = '<'))]

theorem parseContent_blocks (ss : List Str) : ∀ (i : Nat) (anc : List Str)
    (ndsRev : List XTree) (err : Bool) (fuel : Nat), ss ≠ [] →
    (joinSep ['\n'] (blocksFrom i (ss.map escape_xml_entities)) ++
        ("\n</document>\n".data)).length < fuel →
    parseContent fuel ("document".data) anc ['\n'] ndsRev err
        (joinSep ['\n'] (blocksFrom i (ss.map escape_xml_entities)) ++
          ("\n</document>\n".data)) =
      ⟨(pushText ['\n'] ndsRev).reverse ++ docTail i ss, ['\n'], err⟩ := by
  induction ss with
  | nil => intro i anc ndsRev err fuel hne hfuel; exact absurd rfl hne
  | cons s r ih =>
      intro i anc ndsRev err fuel hne hfuel
      cases r with
      | nil =>
          have hx : joinSep ['\n'] (blocksFrom i (([s]).map escape_xml_entities)) ++
              ("\n</document>\n".data) =
              wrap_block i (escape_xml_entities s) ++
                '\n' :: ('<' :: '/' :: (("document".data) ++ '>' :: ['\n'])) := rfl
          rw [hx] at hfuel ⊢
          cases fuel with
          | zero => exact absurd hfuel (Nat.not_lt_zero _)
          | succ fu =>
              cases fu with
              | zero =>
                  exfalso
                  simp only [List.length_cons, List.length_append] at hfuel
                  omega
              | succ fu2 =>
                  rw [parse_block i s ('<' :: '/' :: (("document".data) ++ '>' :: ['\n']))
                    anc ndsRev err fu2 ⟨_, rfl⟩ hfuel]
                  cases fu2 with
                  | zero =>
                      exfalso
                      simp only [List.length_cons, List.length_append] at hfuel
                      omega
                  | succ fu3 =>
                      rw [parseContent_close fu3 ("document".data) anc ['\n']
                        (sElemNode i s :: pushText ['\n'] ndsRev) err ['\n'] (by decide)]
                      simp [pushText, docTail]
      | cons s2 rr =>
          have hx : joinSep ['\n']
              (blocksFrom i ((s :: s2 :: rr).map escape_xml_entities)) ++
              ("\n</document>\n".data) =
              wrap_block i (escape_xml_entities s) ++ '\n' ::
                (joinSep ['\n']
                  (blocksFrom (i + 1) ((s2 :: rr).map escape_xml_entities)) ++
                  ("\n</document>\n".data)) := by
            show (wrap_block i (escape_xml_entities s) ++ ['\n'] ++
                joinSep ['\n']
                  (blocksFrom (i + 1) ((s2 :: rr).map escape_xml_entities))) ++
                ("\n</document>\n".data) = _
            simp
          have hJ : ∃ rs2, joinSep ['\n']
              (blocksFrom (i + 1) ((s2 :: rr).map escape_xml_entities)) ++
              ("\n</document>\n".data) = '<' :: rs2 := by
            cases rr with
            | nil => exact ⟨_, rfl⟩
            | cons s3 rrr => exact ⟨_, rfl⟩
          rw [hx] at hfuel ⊢
          cases fuel with
          | zero => exact absurd hfuel (Nat.not_lt_zero _)
          | succ fu =>
              cases fu with
              | zero =>
                  exfalso
                  simp only [List.length_cons, List.length_append] at hfuel
                  omega
              | succ fu2 =>
                  have hwb : 6 ≤ (wrap_block i (escape_xml_entities s)).length := by
                    simp [wrap_block]
                  rw [parse_block i s _ anc ndsRev err fu2 hJ hfuel]
                  rw [ih (i + 1) anc (sElemNode i s :: pushText ['\n'] ndsRev) err fu2
                    (by simp)
                    (by
                      simp only [List.length_cons, List.length_append] at hfuel ⊢
                      omega)]
                  simp [pushText, docTail]

theorem countS_docTail (ss : List Str) : ∀ i,
    countS (toForest (docTail i ss)) = ss.length := by
  induction ss with
  | nil => intro i; rfl
  | cons s r ih =>
      intro i
      simp [docTail, toForest, countS, sElemNode, ih (i + 1)]
      omega

theorem sAttrVals_docTail (ss : List Str) : ∀ i,
    sAttrVals (toForest (docTail i ss)) = natSeq i ss.length := by
  induction ss with
  | nil => intro i; rfl
  | cons s r ih =>
      intro i
      simp [docTail, toForest, sAttrVals, sElemNode, lookupAttr, natSeq,
        List.length_cons, ih (i + 1)]

theorem docSub_cons (s1 : Str) (srest : List Str) :
    docSub ((s1 :: srest).map escape_xml_entities) =
      ⟨XTree.text ['\n'] :: docTail 1 (s1 :: srest), ['\n'], false⟩ := by
  have hJ : ∃ rs2, joinSep ['\n']
      (blocksFrom 1 ((s1 :: srest).map escape_xml_entities)) ++
      ("\n</document>\n".data) = '<' :: rs2 := by
    cases srest with
    | nil => exact ⟨_, rfl⟩
    | cons a b => exact ⟨_, rfl⟩
  obtain ⟨rs2, hJ⟩ := hJ
  have htt : takeText (('\n' :: (joinSep ['\n']
      (blocksFrom 1 ((s1 :: srest).map escape_xml_entities)) ++
      ("\n</document>\n".data))).length + 1)
      ('\n' :: (joinSep ['\n']
        (blocksFrom 1 ((s1 :: srest).map escape_xml_entities)) ++
        ("\n</document>\n".data))) =
      (['\n'], joinSep ['\n']
        (blocksFrom 1 ((s1 :: srest).map escape_xml_entities)) ++
        ("\n</document>\n".data), false) := by
    have h0 := takeText_concatMap pyEscChar goodTextExp_pyEscChar ['\n']
      (joinSep ['\n'] (blocksFrom 1 ((s1 :: srest).map escape_xml_entities)) ++
        ("\n</document>\n".data))
      (Or.inr ⟨rs2, hJ⟩)
      (('\n' :: (joinSep ['\n']
        (blocksFrom 1 ((s1 :: srest).map escape_xml_entities)) ++
        ("\n</document>\n".data))).length + 1)
      (by
        rw [show concatMapStr pyEscChar ['\n'] ++
            (joinSep ['\n'] (blocksFrom 1 ((s1 :: srest).map escape_xml_entities)) ++
              ("\n</document>\n".data)) =
          '\n' :: (joinSep ['\n']
            (blocksFrom 1 ((s1 :: srest).map escape_xml_entities)) ++
            ("\n</document>\n".data)) from rfl]
        omega)
    exact h0
  simp only [docSub, docBody, List.length_cons]
  simp only [parseContent, htt, List.nil_append, Bool.or_false,
    (by decide : ¬(('\n' : Char) = '<'))]
  rw [parseContent_blocks (s1 :: srest) 1 [] [] false
    ((joinSep ['\n'] (blocksFrom 1 ((s1 :: srest).map escape_xml_entities)) ++
      ("\n</document>\n".data)).length + 1) (by simp) (by omega)]
  simp [pushText]

set_option maxHeartbeats 2000000 in
/-- C10: for every input, `process_single_text` succeeds, the returned count
equals the number of segmented sentences, the returned XML parses without
error to a `document` root, and that root has exactly count `s` element
children whose `n` attribute values are the decimal numbers 1..count in
order. -/
theorem C10_sentence_count (x : Str) :
    ∃ out t, process_single_text x =
        .ok (out, (sentence_split (clean_illegal_xml_chars x)).length) ∧
      parseRecover out = some (t, false) ∧
      ∃ f, t = .elem ("document".data) [] f ∧
        countS f = (sentence_split (clean_illegal_xml_chars x)).length ∧
        sAttrVals f = natSeq 1 (countS f) := by
  have hrun : process_single_text x =
      match validate_and_repair_xml (wrap_as_xml
        ((sentence_split (clean_illegal_xml_chars x)).map escape_xml_entities)) with
      | .error e => .error e
      | .ok v => .ok (v, (sentence_split (clean_illegal_xml_chars x)).length) := rfl
  rcases hss : sentence_split (clean_illegal_xml_chars x) with _ | ⟨s1, srest⟩
  · rw [hss] at hrun
    refine ⟨xserialize (.elem ("document".data) []
        (.cons (.text ("\n\n".data)) .nil)),
      .elem ("document".data) [] (.cons (.text ("\n\n".data)) .nil), ?_, rfl,
      .cons (.text ("\n\n".data)) .nil, rfl, rfl, rfl⟩
    rw [hrun]
    rfl
  · rw [hss] at hrun
    have hsubv := docSub_cons s1 srest
    have hdoc : parseRecover (wrap_as_xml ((s1 :: srest).map escape_xml_entities)) =
        some (.elem ("document".data) []
          (toForest (XTree.text ['\n'] :: docTail 1 (s1 :: srest))), false) := by
      have h0 := parseDoc_wrap ((s1 :: srest).map escape_xml_entities)
        ((wrap_as_xml ((s1 :: srest).map escape_xml_entities)).length + 1) (by omega)
      rw [hsubv] at h0
      simpa [parseRecover, isXmlWs] using h0
    have hwf : wfTree (.elem ("document".data) []
        (toForest (XTree.text ['\n'] :: docTail 1 (s1 :: srest)))) = true := by
      apply parseDoc_wf
        ((wrap_as_xml ((s1 :: srest).map escape_xml_entities)).length + 1)
        false (wrap_as_xml ((s1 :: srest).map escape_xml_entities)) _ false
      exact hdoc
    have hser := parseRecover_xserialize ("document".data) []
      (toForest (XTree.text ['\n'] :: docTail 1 (s1 :: srest))) hwf
    have hc : countS (toForest (XTree.text ['\n'] :: docTail 1 (s1 :: srest))) =
        (s1 :: srest).length := by
      simp [toForest, countS, countS_docTail]
      omega
    refine ⟨xserialize (.elem ("document".data) []
        (toForest (XTree.text ['\n'] :: docTail 1 (s1 :: srest)))),
      .elem ("document".data) []
        (toForest (XTree.text ['\n'] :: docTail 1 (s1 :: srest))), ?_, hser,
      toForest (XTree.text ['\n'] :: docTail 1 (s1 :: srest)), rfl, hc, ?_⟩
    · rw [hrun]
      simp only [validate_and_repair_xml]
      rw [hdoc]
    · rw [hc]
      simp [toForest, sAttrVals, sAttrVals_docTail, lookupAttr, natSeq]
